import Mathlib

/-!
Verification of the transparency-dev/merkle log-proof library.

The development shallowly embeds the Go sources:
* `proof/proof.go` (proof-shape builder: `Inclusion`, `Consistency`, `nodes`, `Rehash`),
* `proof/verify.go` (`VerifyInclusion`, `VerifyConsistency`, `verify`),
* `merkle.go` (`GetCompactRange` with its `store`, `newRange`, `fetch` helpers),
* `proof/tlog_proof.go` (`VerifyTLogProof` parsing),
and models the `compact` package (node addressing, `RangeNodes`, `RangeSize`,
`Decompose`, compact ranges), whose implementation files are not part of the
source snapshot, from the specification of the node-addressing algebra and the
range decomposition walk.

Machine integers (uint64) are modelled as `Nat`; all the arithmetic performed
by the embedded functions on in-range inputs (bit shifts, xor, guarded
subtractions) is overflow-free, so the `Nat` semantics agrees with the Go
semantics. Hash values are an arbitrary type with decidable equality; the
hashers are explicit function parameters, mirroring the Go interfaces.
-/

namespace MerkleProof

/-- Modelled from the spec: node address of the `compact` package (whose
implementation file is missing from the snapshot). Level 0 is the leaf layer,
and a node `(L, I)` covers leaves from `I * 2^L` (inclusive) to
`(I+1) * 2^L` (exclusive). -/
structure NodeID where
  level : Nat
  index : Nat
deriving DecidableEq, Repr

/-- Modelled from the spec: `compact.NewNodeID(level, index)`. -/
def NewNodeID (level index : Nat) : NodeID := ⟨level, index⟩

/-- Modelled from the spec: `compact.NodeID.Coverage`, returning
`(index << level, (index+1) << level)`. -/
def NodeID.Coverage (n : NodeID) : Nat × Nat :=
  (n.index <<< n.level, (n.index + 1) <<< n.level)

/-- Modelled from the spec: `compact.NodeID.Parent = (level+1, index >> 1)`. -/
def NodeID.Parent (n : NodeID) : NodeID := ⟨n.level + 1, n.index / 2⟩

/-- Modelled from the spec: `compact.NodeID.Sibling = (level, index ^ 1)`. -/
def NodeID.Sibling (n : NodeID) : NodeID := ⟨n.level, n.index ^^^ 1⟩

/-- `math/bits.Len64` on in-range values: the number of bits required to
represent `n`; `bitLen 0 = 0`. -/
def bitLen (n : Nat) : Nat :=
  if n = 0 then 0 else bitLen (n / 2) + 1
termination_by n
decreasing_by omega

/-- `math/bits.TrailingZeros64` on in-range values (64 for input 0). -/
def trailingZeros (n : Nat) : Nat :=
  if n = 0 then 64
  else if n % 2 = 1 then 0
  else trailingZeros (n / 2) + 1
termination_by n
decreasing_by omega

/-- Modelled from the spec: the range-decomposition walk of
`compact.RangeNodes`. At each level, starting from 0, if bit `level` of the
current `begin` is set the node `(level, begin >> level)` is emitted to the
left border and `begin` advances by `2^level`; if bit `level` of the current
`end` is set the node `(level, (end - 2^level) >> level)` is emitted to the
right border and `end` retreats by `2^level`; the walk terminates when the two
meet. Arguments are kept in the shifted form (`b` is `begin >> level`, `e` is
`end >> level`), so testing bit `level` is testing parity. Returns the left
border in emission order and the right border in reverse emission order. -/
def rangeNodesAux (level b e : Nat) : List NodeID × List NodeID :=
  if b < e then
    let p := rangeNodesAux (level + 1) ((b + b % 2) / 2) ((e - e % 2) / 2)
    ((if b % 2 = 1 then [⟨level, b⟩] else []) ++ p.1,
     p.2 ++ (if e % 2 = 1 then [⟨level, e - 1⟩] else []))
  else ([], [])
termination_by e
decreasing_by omega

/-- Modelled from the spec: `compact.RangeNodes(begin, end)`, the minimal list
of perfect nodes covering the leaf range from `begin` to `end`: left border in
ascending level order followed by right border in descending level order. -/
def RangeNodes (b e : Nat) : List NodeID :=
  (rangeNodesAux 0 b e).1 ++ (rangeNodesAux 0 b e).2

/-- Modelled from the spec: `compact.RangeSize(begin, end)` returns the length
of the `RangeNodes(begin, end)` list. -/
def RangeSize (b e : Nat) : Nat := (RangeNodes b e).length

/-- Modelled from the spec: `compact.Decompose(begin, end)` splits the range
into the sizes of its left and right borders, which meet at the merge point. -/
def Decompose (b e : Nat) : Nat × Nat :=
  let leftSize := (((rangeNodesAux 0 b e).1.map fun n => 2 ^ n.level)).sum
  (leftSize, e - b - leftSize)

/-- Errors returned by the proof-shape builder `proof/proof.go`.
`outOfRange` is the error of `Inclusion` (index out of bounds for tree size),
`invalidRange` the error of `Consistency` (size1 greater than size2), and
`lengthMismatch` the error of `Nodes.Rehash`. -/
inductive PErr where
  | outOfRange (index size : Nat)
  | invalidRange (size1 size2 : Nat)
  | lengthMismatch (got want : Nat)
deriving DecidableEq, Repr

/-- `proof.Nodes`: the node IDs of a proof, the half-open window
`IDs[beginIdx:endIdx]` of nodes which recreate the ephemeral node, and the
ephemeral node itself. The Go fields `begin` and `end` are named `beginIdx`
and `endIdx` (`end` is a Lean keyword). -/
structure Nodes where
  IDs : List NodeID
  beginIdx : Nat
  endIdx : Nat
  ephem : NodeID
deriving DecidableEq, Repr

/-- The sibling-collection loop of `proof.nodes`: starting at `node`, emit the
sibling and step to the parent, `k` times (the Go loop runs while
`node.Level < ephemLevel`, which is exactly `ephemLevel - level` times since
each step increments the level). Returns the siblings in emission order
together with the final node. -/
def upSiblings : Nat → NodeID → List NodeID × NodeID
  | 0, node => ([], node)
  | k + 1, node =>
    let p := upSiblings k node.Parent
    (node.Sibling :: p.1, p.2)

/-- `proof.nodes(index, level, size)`: node IDs proving that node
`(level, index)` is included in the Merkle tree of the given size. -/
def nodesFn (index : Nat) (level : Nat) (size : Nat) : Nodes :=
  let node := NewNodeID level index
  let begin0 := (NodeID.Coverage node).1
  let ephemLevel := bitLen (begin0 ^^^ size) - 1
  let up := upSiblings (ephemLevel - level) node
  let node1 := up.2
  let b := (NodeID.Coverage node1).1
  let e := (NodeID.Coverage node1).2
  let len1 := up.1.length
  let ids2 := up.1 ++ (RangeNodes e size).reverse
  let len2 := ids2.length
  let ids3 := ids2 ++ (RangeNodes 0 b).reverse
  if len1 + 1 ≥ len2 then ⟨ids3, 0, 0, node1.Sibling⟩
  else ⟨ids3, len1, len2, node1.Sibling⟩

/-- `proof.Inclusion(index, size)`: requires `index < size`. -/
def Inclusion (index size : Nat) : Except PErr Nodes :=
  if index ≥ size then .error (.outOfRange index size)
  else .ok (nodesFn index 0 size)

/-- `proof.Consistency(size1, size2)`: requires `size1 <= size2`. -/
def Consistency (size1 size2 : Nat) : Except PErr Nodes :=
  if size1 > size2 then .error (.invalidRange size1 size2)
  else if size1 = size2 ∨ size1 = 0 then .ok ⟨[], 0, 0, ⟨0, 0⟩⟩
  else
    let level := trailingZeros size1
    let index := (size1 - 1) >>> level
    let p := nodesFn index level size2
    if index ≠ 0 then
      .ok ⟨NewNodeID level index :: p.IDs,
        (if p.beginIdx < p.endIdx then p.beginIdx + 1 else p.beginIdx),
        (if p.beginIdx < p.endIdx then p.endIdx + 1 else p.endIdx),
        p.ephem⟩
    else .ok p

/-- `proof.Nodes.Ephem()`. -/
def Nodes.Ephem (n : Nodes) : NodeID × Nat × Nat := (n.ephem, n.beginIdx, n.endIdx)

/-- The in-place scan of `proof.Nodes.Rehash` as a pure list transformation:
hashes outside the window are copied through, and the window
`h[beginIdx:endIdx]` is replaced by its bottom-up fold
`hc h[j] (... (hc h[beginIdx+1] h[beginIdx]))`. The Go loop reaches the window
the first time `i` equals `beginIdx` (if that index exists and the window is
nonempty), folds it, and continues right after it. -/
def rehashList {α : Type} (hc : α → α → α) (b e : Nat) (h : List α) : List α :=
  if b < e then
    match h.drop b with
    | [] => h
    | x :: rest =>
      h.take b ++ ((rest.take (e - 1 - b)).foldl (fun acc y => hc y acc) x) :: h.drop e
  else h

/-- `proof.Nodes.Rehash(h, hc)`: requires the hash list and the ID list to
have the same length. -/
def Nodes.Rehash {α : Type} (n : Nodes) (h : List α) (hc : α → α → α) :
    Except PErr (List α) :=
  if h.length ≠ n.IDs.length then .error (.lengthMismatch h.length n.IDs.length)
  else .ok (rehashList hc n.beginIdx n.endIdx h)

/-- Errors returned by the verifier `proof/verify.go`. `outOfRange` is the
index-out-of-range error of `VerifyInclusion`, `invalidRange` the
size-order error of `VerifyConsistency`, `proofSize` the incorrect-proof-size
errors, and `rootMismatch` is `RootMismatchError` with its size, computed and
expected fields. -/
inductive VErr (α : Type) where
  | outOfRange (index size : Nat)
  | invalidRange (size1 size2 : Nat)
  | proofSize (got want : Nat)
  | rootMismatch (size : Nat) (computed expected : α)
deriving DecidableEq, Repr

/-- The first folding loop of `proof.verify`: combine the proof hashes along
the path, the side chosen by the parity of the current node index, stepping to
the parent each time. -/
def chainInner {α : Type} (hc : α → α → α) : Nat → α → List α → α
  | _, hash, [] => hash
  | index, hash, h :: t =>
    chainInner hc (index / 2) (if index % 2 = 0 then hc hash h else hc h hash) t

/-- The left-border folding loop of `proof.verify` (and of the root1
recomputation in `VerifyConsistency`): `hash = hc h hash` for each hash. -/
def chainBorder {α : Type} (hc : α → α → α) : α → List α → α
  | hash, [] => hash
  | hash, h :: t => chainBorder hc (hc h hash) t

/-- `proof.verify(nh, index, level, size, hash, proof, root)`. -/
def verify {α : Type} [DecidableEq α] (hc : α → α → α) (index level size : Nat)
    (hash : α) (proof : List α) (root : α) : Except (VErr α) Unit :=
  let inner := bitLen (index ^^^ (size >>> level)) - 1
  let fork := NewNodeID (level + inner) (index >>> inner)
  let b := (NodeID.Coverage fork).1
  let e := (NodeID.Coverage fork).2
  let left := RangeSize 0 b
  let right := if e = size then 0 else 1
  if proof.length ≠ inner + right + left then
    .error (.proofSize proof.length (inner + right + left))
  else
    let hash1 := chainInner hc index hash (proof.take inner)
    let hash2 :=
      if right = 1 then
        match proof.drop inner with
        | h :: _ => hc hash1 h
        | [] => hash1
      else hash1
    let hash3 := chainBorder hc hash2 (proof.drop (inner + right))
    if hash3 = root then .ok () else .error (.rootMismatch size hash3 root)

/-- `proof.VerifyInclusion(nh, index, size, hash, proof, root)`. -/
def VerifyInclusion {α : Type} [DecidableEq α] (hc : α → α → α)
    (index size : Nat) (hash : α) (proof : List α) (root : α) :
    Except (VErr α) Unit :=
  if index ≥ size then .error (.outOfRange index size)
  else verify hc index 0 size hash proof root

/-- The root1 recomputation loop of `proof.VerifyConsistency`: over
`proof[1:1+inner]`, combine `hash = hc h hash` only when bit `i` of the anchor
index is set. -/
def consInnerFold {α : Type} (hc : α → α → α) (index : Nat) : Nat → α → List α → α
  | _, hash, [] => hash
  | i, hash, h :: t =>
    consInnerFold hc index (i + 1)
      (if (index >>> i) % 2 = 1 then hc h hash else hash) t

/-- `proof.VerifyConsistency(nh, size1, size2, proof, root1, root2)`. -/
def VerifyConsistency {α : Type} [DecidableEq α] (hc : α → α → α)
    (size1 size2 : Nat) (proof : List α) (root1 root2 : α) :
    Except (VErr α) Unit :=
  if size1 > size2 then .error (.invalidRange size1 size2)
  else if (size1 = size2 ∨ size1 = 0) ∧ proof.length ≠ 0 then
    .error (.proofSize proof.length 0)
  else if size1 = size2 then
    (if root1 = root2 then .ok () else .error (.rootMismatch size1 root1 root2))
  else if size1 = 0 then .ok ()
  else
    let level := trailingZeros size1
    let index := (size1 - 1) >>> level
    if index = 0 then verify hc index level size2 root1 proof root2
    else if proof.length ≠ 1 + bitLen (size2 - 1) - level then
      .error (.proofSize proof.length (1 + bitLen (size2 - 1) - level))
    else
      match proof with
      | [] => .error (.proofSize 0 (1 + bitLen (size2 - 1) - level))
      | p0 :: prest =>
        match verify hc index level size2 p0 prest root2 with
        | .error er => .error er
        | .ok _ =>
          let inner := bitLen (index ^^^ (size2 >>> level)) - 1
          let hash1 := consInnerFold hc index 0 p0 (prest.take inner)
          let hash2 := chainBorder hc hash1 (prest.drop inner)
          if hash2 = root1 then .ok ()
          else .error (.rootMismatch size1 hash2 root1)

/-! ### The canonical Merkle tree

`subH` is the hash of the perfect subtree rooted at `(level, index)` over the
leaf hashes `f`, built with `hash_children`. `tval` is the hash of the
possibly-ephemeral node `(level, index)` in the tree truncated at `sz` leaves:
the hash of the compact range covering the intersection of the node coverage
with the first `sz` leaves. `rootH sz` is the hash of the node covering the
whole tree of size `sz`, which sits at level `bitLen (sz - 1)`. -/

/-- Hash of the perfect subtree rooted at `(level, index)`. -/
def subH {α : Type} (hc : α → α → α) (f : Nat → α) : Nat → Nat → α
  | 0, index => f index
  | level + 1, index => hc (subH hc f level (2 * index)) (subH hc f level (2 * index + 1))

/-- Canonical hash assignment to node IDs (meaningful for perfect nodes). -/
def nodeH {α : Type} (hc : α → α → α) (f : Nat → α) (n : NodeID) : α :=
  subH hc f n.level n.index

/-- Hash of the node `(level, index)` in the tree truncated at `sz` leaves. -/
def tval {α : Type} (hc : α → α → α) (f : Nat → α) (sz : Nat) : Nat → Nat → α
  | 0, index => f index
  | level + 1, index =>
    if (2 * index + 1) <<< level < sz then
      hc (subH hc f level (2 * index)) (tval hc f sz level (2 * index + 1))
    else tval hc f sz level (2 * index)

/-- Canonical root hash of the tree over the first `sz` leaves (`sz` is
positive in every use). -/
def rootH {α : Type} (hc : α → α → α) (f : Nat → α) (sz : Nat) : α :=
  tval hc f sz (bitLen (sz - 1)) 0

end MerkleProof

namespace MerkleProof

/-! ### Concrete instances used in closed evaluation theorems

`hcL` is an injective-enough concrete `hash_children` over byte-string-like
hashes (`List Nat`), and `fL` assigns distinct leaf hashes. -/

/-- A concrete children hasher over `List Nat` hashes. -/
def hcL (l r : List Nat) : List Nat := (l.length :: l) ++ r

/-- Concrete distinct leaf hashes. -/
def fL (i : Nat) : List Nat := [i]

/-! ### Structural invariants of the proof-shape builder -/

/-- The window of `proof.nodes` satisfies
`beginIdx <= endIdx <= length IDs` and is empty or of size at least two. -/
theorem nodesFn_window_inv (index level size : Nat) :
    (nodesFn index level size).beginIdx ≤ (nodesFn index level size).endIdx ∧
    (nodesFn index level size).endIdx ≤ (nodesFn index level size).IDs.length ∧
    ((nodesFn index level size).endIdx - (nodesFn index level size).beginIdx = 0 ∨
      2 ≤ (nodesFn index level size).endIdx - (nodesFn index level size).beginIdx) := by
  simp only [nodesFn]
  split
  · simp
  · rename_i hcoll
    simp only [ge_iff_le, not_le, List.length_append, List.length_reverse] at *
    refine ⟨by omega, by omega, by omega⟩

/-- `verify` only ever reports a proof-size or a root-mismatch error. -/
theorem verify_error_kinds {α : Type} [DecidableEq α] (hc : α → α → α)
    (index level size : Nat) (hash : α) (proof : List α) (root : α) :
    ∀ a b, verify hc index level size hash proof root ≠ .error (.outOfRange a b) ∧
      verify hc index level size hash proof root ≠ .error (.invalidRange a b) := by
  intro a b
  simp only [verify]
  constructor <;> · split <;> (try split) <;> (try split) <;> (try split) <;> simp

/-- CLAIM C7. For every `Nodes` value whose rehash window is empty
(`beginIdx = endIdx`) and every hash list of matching length, `Rehash`
returns the input list unchanged, never invoking the children hasher. -/
theorem rehash_identity_on_empty_window {α : Type} (hc : α → α → α)
    (n : Nodes) (h : List α) (hwin : n.beginIdx = n.endIdx)
    (hlen : h.length = n.IDs.length) :
    n.Rehash h hc = .ok h := by
  simp [Nodes.Rehash, rehashList, hlen, hwin]

/-- Witness for `rehash_identity_on_empty_window` at a concrete input. -/
theorem rehash_identity_on_empty_window_witness :
    (Nodes.mk [⟨0, 0⟩, ⟨0, 1⟩] 1 1 ⟨1, 0⟩).beginIdx =
      (Nodes.mk [⟨0, 0⟩, ⟨0, 1⟩] 1 1 ⟨1, 0⟩).endIdx ∧
    ([[5], [6]] : List (List Nat)).length =
      (Nodes.mk [⟨0, 0⟩, ⟨0, 1⟩] 1 1 ⟨1, 0⟩).IDs.length ∧
    (Nodes.mk [⟨0, 0⟩, ⟨0, 1⟩] 1 1 ⟨1, 0⟩).Rehash [[5], [6]] hcL =
      .ok [[5], [6]] :=
  ⟨rfl, rfl,
    rehash_identity_on_empty_window hcL (Nodes.mk [⟨0, 0⟩, ⟨0, 1⟩] 1 1 ⟨1, 0⟩)
      [[5], [6]] rfl rfl⟩


/-- CLAIM C3. The trivial cases of `VerifyConsistency`: for equal sizes it
succeeds exactly on an empty proof with byte-equal roots, reporting a
proof-size error for a non-empty proof and a root mismatch for differing
roots; for `size1 = 0 < size2` it succeeds exactly on an empty proof, for
every pair of roots. -/
theorem verifyConsistency_trivial_cases {α : Type} [DecidableEq α] (hc : α → α → α) :
    (∀ (s : Nat) (proof : List α) (r1 r2 : α),
      (proof ≠ [] →
        VerifyConsistency hc s s proof r1 r2 = .error (.proofSize proof.length 0)) ∧
      (proof = [] →
        VerifyConsistency hc s s proof r1 r2 =
          if r1 = r2 then .ok () else .error (.rootMismatch s r1 r2)) ∧
      (VerifyConsistency hc s s proof r1 r2 = .ok () ↔ proof = [] ∧ r1 = r2)) ∧
    (∀ (s2 : Nat) (proof : List α) (r1 r2 : α), 0 < s2 →
      (VerifyConsistency hc 0 s2 proof r1 r2 = .ok () ↔ proof = []) ∧
      (proof ≠ [] →
        VerifyConsistency hc 0 s2 proof r1 r2 = .error (.proofSize proof.length 0))) := by
  constructor
  · intro s proof r1 r2
    refine ⟨fun hp => ?_, fun hp => ?_, ?_⟩
    · have hl : proof.length ≠ 0 := by simpa using hp
      simp [VerifyConsistency, hl]
    · subst hp
      simp [VerifyConsistency]
    · cases proof with
      | nil => by_cases hr : r1 = r2 <;> simp [VerifyConsistency, hr]
      | cons a t => simp [VerifyConsistency]
  · intro s2 proof r1 r2 h2
    cases proof with
    | nil => simp [VerifyConsistency, h2.ne, Nat.not_lt.mpr h2.le]
    | cons a t => simp [VerifyConsistency, h2.ne, Nat.not_lt.mpr h2.le]

/-- Witness for `verifyConsistency_trivial_cases` at concrete inputs. -/
theorem verifyConsistency_trivial_cases_witness :
    ([[7]] : List (List Nat)) ≠ [] ∧
    VerifyConsistency hcL 5 5 [[7]] [1] [1] = .error (.proofSize 1 0) ∧
    VerifyConsistency hcL 5 5 ([] : List (List Nat)) [1] [2] =
      .error (.rootMismatch 5 [1] [2]) ∧
    (0 : Nat) < 3 ∧
    VerifyConsistency hcL 0 3 ([] : List (List Nat)) [1] [2] = .ok () := by
  refine ⟨by decide, ?_, ?_, by decide, ?_⟩
  · exact ((verifyConsistency_trivial_cases hcL).1 5 [[7]] [1] [1]).1 (by decide)
  · have h := ((verifyConsistency_trivial_cases hcL).1 5 [] [1] [2]).2.1 rfl
    rw [if_neg (by decide)] at h
    exact h
  · exact (((verifyConsistency_trivial_cases hcL).2 3 [] [1] [2]) (by decide)).1.mpr rfl

/-- CLAIM C6. `Inclusion` and `VerifyInclusion` report the out-of-range error
exactly when `index >= size` (and `Inclusion` never errors otherwise);
`Consistency` and `VerifyConsistency` report the invalid-range error exactly
when `size1 > size2` (and `Consistency` never errors otherwise). -/
theorem range_error_characterisation {α : Type} [DecidableEq α] (hc : α → α → α) :
    (∀ index size : Nat,
      (size ≤ index → Inclusion index size = .error (.outOfRange index size)) ∧
      (index < size → Inclusion index size = .ok (nodesFn index 0 size))) ∧
    (∀ (index size : Nat) (hash : α) (proof : List α) (root : α),
      (size ≤ index →
        VerifyInclusion hc index size hash proof root = .error (.outOfRange index size)) ∧
      (index < size → ∀ a b : Nat,
        VerifyInclusion hc index size hash proof root ≠ .error (.outOfRange a b))) ∧
    (∀ size1 size2 : Nat,
      (size2 < size1 → Consistency size1 size2 = .error (.invalidRange size1 size2)) ∧
      (size1 ≤ size2 → ∃ n, Consistency size1 size2 = .ok n)) ∧
    (∀ (size1 size2 : Nat) (proof : List α) (r1 r2 : α),
      (size2 < size1 →
        VerifyConsistency hc size1 size2 proof r1 r2 = .error (.invalidRange size1 size2)) ∧
      (size1 ≤ size2 → ∀ a b : Nat,
        VerifyConsistency hc size1 size2 proof r1 r2 ≠ .error (.invalidRange a b))) := by
  refine ⟨?_, ?_, ?_, ?_⟩
  · intro index size
    constructor
    · intro h
      simp [Inclusion, h]
    · intro h
      rw [Inclusion, if_neg (by omega)]
  · intro index size hash proof root
    constructor
    · intro h
      simp [VerifyInclusion, h]
    · intro h a b
      rw [VerifyInclusion, if_neg (by omega)]
      exact (verify_error_kinds hc index 0 size hash proof root a b).1
  · intro size1 size2
    constructor
    · intro h
      simp [Consistency, h]
    · intro h
      simp only [Consistency]
      rw [if_neg (by omega)]
      split
      · exact ⟨_, rfl⟩
      · split
        · exact ⟨_, rfl⟩
        · exact ⟨_, rfl⟩
  · intro size1 size2 proof r1 r2
    constructor
    · intro h
      simp [VerifyConsistency, h]
    · intro h a b
      intro hEq
      simp only [VerifyConsistency] at hEq
      rw [if_neg (by omega)] at hEq
      split at hEq
      all_goals try split at hEq
      all_goals try split at hEq
      all_goals try split at hEq
      all_goals try split at hEq
      all_goals try split at hEq
      all_goals try split at hEq
      all_goals try split at hEq
      all_goals try (simp at hEq)
      all_goals first
        | exact (verify_error_kinds hc _ _ _ _ _ _ a b).2 hEq
        | (subst hEq
           exact (verify_error_kinds hc _ _ _ _ _ _ a b).2 (by assumption))

/-- Witness for `range_error_characterisation` at concrete inputs. -/
theorem range_error_characterisation_witness :
    (3 : Nat) ≤ 5 ∧ Inclusion 5 3 = .error (.outOfRange 5 3) ∧
    (1 : Nat) < 3 ∧ Inclusion 1 3 = .ok (nodesFn 1 0 3) ∧
    VerifyInclusion hcL 5 3 [0] [] [9] = .error (.outOfRange 5 3) ∧
    VerifyInclusion hcL 1 3 [0] [] [9] ≠ .error (.outOfRange 1 3) ∧
    (3 : Nat) < 5 ∧ Consistency 5 3 = .error (.invalidRange 5 3) ∧
    (∃ n, Consistency 2 3 = .ok n) ∧
    VerifyConsistency hcL 5 3 [] [1] [2] = .error (.invalidRange 5 3) ∧
    VerifyConsistency hcL 2 3 [] [1] [2] ≠ .error (.invalidRange 0 0) := by
  have hth := range_error_characterisation hcL
  refine ⟨by decide, (hth.1 5 3).1 (by decide), by decide, (hth.1 1 3).2 (by decide),
    (hth.2.1 5 3 [0] [] [9]).1 (by decide),
    (hth.2.1 1 3 [0] [] [9]).2 (by decide) 1 3,
    by decide, (hth.2.2.1 5 3).1 (by decide),
    (hth.2.2.1 2 3).2 (by decide),
    (hth.2.2.2 5 3 [] [1] [2]).1 (by decide),
    (hth.2.2.2 2 3 [] [1] [2]).2 (by decide) 0 0⟩

/-- CLAIM C5. Every `Nodes` value produced by `Inclusion` or `Consistency`
satisfies `beginIdx <= endIdx <= length IDs`, and the rehash window is empty
or contains at least two nodes. -/
theorem nodes_window_invariants :
    (∀ (index size : Nat) (n : Nodes), Inclusion index size = .ok n →
      n.beginIdx ≤ n.endIdx ∧ n.endIdx ≤ n.IDs.length ∧
      (n.endIdx - n.beginIdx = 0 ∨ 2 ≤ n.endIdx - n.beginIdx)) ∧
    (∀ (size1 size2 : Nat) (n : Nodes), Consistency size1 size2 = .ok n →
      n.beginIdx ≤ n.endIdx ∧ n.endIdx ≤ n.IDs.length ∧
      (n.endIdx - n.beginIdx = 0 ∨ 2 ≤ n.endIdx - n.beginIdx)) := by
  constructor
  · intro index size n h
    rw [Inclusion] at h
    split at h
    · simp at h
    · injection h with h
      subst h
      exact nodesFn_window_inv index 0 size
  · intro size1 size2 n h
    simp only [Consistency] at h
    split at h
    · simp at h
    · split at h
      · injection h with h
        subst h
        simp
      · split at h
        · injection h with h
          subst h
          have hp := nodesFn_window_inv ((size1 - 1) >>> trailingZeros size1)
            (trailingZeros size1) size2
          constructor
          · dsimp only
            split <;> omega
          · constructor
            · dsimp only
              split <;> (simp only [List.length_cons]; omega)
            · dsimp only
              split <;> omega
        · injection h with h
          subst h
          exact nodesFn_window_inv ((size1 - 1) >>> trailingZeros size1)
            (trailingZeros size1) size2


/-! ### Evaluation helpers for concrete instances -/

/-- `trailingZeros 6 = 1`. -/
theorem trailingZeros_six : trailingZeros 6 = 1 := by simp [trailingZeros]

/-- Concrete shape of `nodes(2, 1, 8)`. -/
theorem nodesFn_2_1_8 : nodesFn 2 1 8 = ⟨[⟨1, 3⟩, ⟨2, 0⟩], 0, 0, ⟨3, 1⟩⟩ := by
  simp [nodesFn, NewNodeID, NodeID.Coverage, NodeID.Parent, NodeID.Sibling,
    upSiblings, bitLen, RangeNodes, rangeNodesAux]

/-- Concrete shape of `Consistency(6, 8)`: the window of `nodes(2, 1, 8)` is
empty, so `beginIdx` and `endIdx` stay 0 after the prepend. -/
theorem consistency_6_8 :
    Consistency 6 8 = .ok ⟨[⟨1, 2⟩, ⟨1, 3⟩, ⟨2, 0⟩], 0, 0, ⟨3, 1⟩⟩ := by
  simp [Consistency, trailingZeros, nodesFn, NewNodeID, NodeID.Coverage,
    NodeID.Parent, NodeID.Sibling, upSiblings, bitLen, RangeNodes, rangeNodesAux]

/-- CLAIM C4 (amended): `Consistency` returns the empty descriptor when
`size1 = size2` or `size1 = 0`; otherwise, with `L = trailingZeros size1` and
`I = (size1 - 1) >> L`, it returns `nodes(I, L, size2)` unchanged when
`I = 0`, and when `I != 0` it returns `nodes(I, L, size2)` with the node
`(L, I)` prepended to its ids, and with `begin` and `end` shifted by one only
when the rehash window is non-empty (`begin < end`); an empty window is left
at `begin = end = 0`. -/
theorem consistency_shape_amended (size1 size2 : Nat) (h : size1 ≤ size2) :
    ((size1 = size2 ∨ size1 = 0) → Consistency size1 size2 = .ok ⟨[], 0, 0, ⟨0, 0⟩⟩) ∧
    (0 < size1 → size1 < size2 →
      ((size1 - 1) >>> trailingZeros size1 = 0 →
        Consistency size1 size2 =
          .ok (nodesFn ((size1 - 1) >>> trailingZeros size1) (trailingZeros size1) size2)) ∧
      ((size1 - 1) >>> trailingZeros size1 ≠ 0 →
        Consistency size1 size2 = .ok
          ⟨NewNodeID (trailingZeros size1) ((size1 - 1) >>> trailingZeros size1) ::
              (nodesFn ((size1 - 1) >>> trailingZeros size1) (trailingZeros size1) size2).IDs,
            (if (nodesFn ((size1 - 1) >>> trailingZeros size1) (trailingZeros size1) size2).beginIdx <
                (nodesFn ((size1 - 1) >>> trailingZeros size1) (trailingZeros size1) size2).endIdx then
              (nodesFn ((size1 - 1) >>> trailingZeros size1) (trailingZeros size1) size2).beginIdx + 1
            else
              (nodesFn ((size1 - 1) >>> trailingZeros size1) (trailingZeros size1) size2).beginIdx),
            (if (nodesFn ((size1 - 1) >>> trailingZeros size1) (trailingZeros size1) size2).beginIdx <
                (nodesFn ((size1 - 1) >>> trailingZeros size1) (trailingZeros size1) size2).endIdx then
              (nodesFn ((size1 - 1) >>> trailingZeros size1) (trailingZeros size1) size2).endIdx + 1
            else
              (nodesFn ((size1 - 1) >>> trailingZeros size1) (trailingZeros size1) size2).endIdx),
            (nodesFn ((size1 - 1) >>> trailingZeros size1) (trailingZeros size1) size2).ephem⟩)) := by
  constructor
  · intro hcase
    simp only [Consistency]
    rw [if_neg (by omega), if_pos hcase]
  · intro h1 h2
    constructor
    · intro hI
      simp only [Consistency]
      rw [if_neg (by omega), if_neg (by omega), if_neg (not_not_intro hI)]
    · intro hI
      simp only [Consistency]
      rw [if_neg (by omega), if_neg (by omega), if_pos hI]

/-- Counterexample to CLAIM C4 as stated: at `size1 = 6`, `size2 = 8` the
anchor index `I = 2` is non-zero and the window of `nodes(2, 1, 8)` is empty,
and `Consistency` leaves `begin = end = 0` rather than shifting both to 1 as
the unconditional-shift reading of the claim requires. -/
theorem consistency_shape_counterexample : Consistency 6 8 ≠
    .ok ⟨NewNodeID (trailingZeros 6) ((6 - 1) >>> trailingZeros 6) ::
        (nodesFn ((6 - 1) >>> trailingZeros 6) (trailingZeros 6) 8).IDs,
      (nodesFn ((6 - 1) >>> trailingZeros 6) (trailingZeros 6) 8).beginIdx + 1,
      (nodesFn ((6 - 1) >>> trailingZeros 6) (trailingZeros 6) 8).endIdx + 1,
      (nodesFn ((6 - 1) >>> trailingZeros 6) (trailingZeros 6) 8).ephem⟩ := by
  rw [consistency_6_8]
  rw [show (6 - 1) >>> trailingZeros 6 = 2 from by rw [trailingZeros_six]; decide]
  rw [trailingZeros_six, nodesFn_2_1_8]
  simp only [ne_eq, Except.ok.injEq]
  decide

/-- Witness for `consistency_shape_amended` at concrete inputs: the trivial
case (2, 2), the power-of-two case (2, 3), and the prepend case (6, 8). -/
theorem consistency_shape_amended_witness :
    (2 : Nat) ≤ 2 ∧ Consistency 2 2 = .ok ⟨[], 0, 0, ⟨0, 0⟩⟩ ∧
    (0 : Nat) < 2 ∧ (2 : Nat) < 3 ∧ (2 - 1) >>> trailingZeros 2 = 0 ∧
    Consistency 2 3 =
      .ok (nodesFn ((2 - 1) >>> trailingZeros 2) (trailingZeros 2) 3) ∧
    (6 - 1) >>> trailingZeros 6 ≠ 0 ∧
    Consistency 6 8 = .ok
      ⟨NewNodeID (trailingZeros 6) ((6 - 1) >>> trailingZeros 6) ::
          (nodesFn ((6 - 1) >>> trailingZeros 6) (trailingZeros 6) 8).IDs,
        (if (nodesFn ((6 - 1) >>> trailingZeros 6) (trailingZeros 6) 8).beginIdx <
            (nodesFn ((6 - 1) >>> trailingZeros 6) (trailingZeros 6) 8).endIdx then
          (nodesFn ((6 - 1) >>> trailingZeros 6) (trailingZeros 6) 8).beginIdx + 1
        else (nodesFn ((6 - 1) >>> trailingZeros 6) (trailingZeros 6) 8).beginIdx),
        (if (nodesFn ((6 - 1) >>> trailingZeros 6) (trailingZeros 6) 8).beginIdx <
            (nodesFn ((6 - 1) >>> trailingZeros 6) (trailingZeros 6) 8).endIdx then
          (nodesFn ((6 - 1) >>> trailingZeros 6) (trailingZeros 6) 8).endIdx + 1
        else (nodesFn ((6 - 1) >>> trailingZeros 6) (trailingZeros 6) 8).endIdx),
        (nodesFn ((6 - 1) >>> trailingZeros 6) (trailingZeros 6) 8).ephem⟩ := by
  have htz2 : trailingZeros 2 = 1 := by simp [trailingZeros]
  have hI2 : (2 - 1) >>> trailingZeros 2 = 0 := by rw [htz2]; decide
  have hI6 : (6 - 1) >>> trailingZeros 6 ≠ 0 := by rw [trailingZeros_six]; decide
  exact ⟨le_refl 2, (consistency_shape_amended 2 2 (le_refl 2)).1 (Or.inl rfl),
    by decide, by decide, hI2,
    ((consistency_shape_amended 2 3 (by decide)).2 (by decide) (by decide)).1 hI2,
    hI6,
    ((consistency_shape_amended 6 8 (by decide)).2 (by decide) (by decide)).2 hI6⟩

/-- The canonical consistency-proof pipeline: build the proof shape with
`Consistency`, take the canonical hashes of its node IDs, `Rehash` them, and
hand the result to `VerifyConsistency` together with the canonical roots. -/
def canonicalConsistencyRun {α : Type} [DecidableEq α] (hc : α → α → α)
    (f : Nat → α) (s1 s2 : Nat) : Option (Except (VErr α) Unit) :=
  match Consistency s1 s2 with
  | .error _ => none
  | .ok nd =>
    match nd.Rehash (nd.IDs.map (nodeH hc f)) hc with
    | .error _ => none
    | .ok pf => some (VerifyConsistency hc s1 s2 pf (rootH hc f s1) (rootH hc f s2))

/-- The canonical inclusion-proof pipeline: build the proof shape with
`Inclusion`, take the canonical hashes of its node IDs, `Rehash` them, and
hand the result to `VerifyInclusion` with the canonical leaf hash and root. -/
def canonicalInclusionRun {α : Type} [DecidableEq α] (hc : α → α → α)
    (f : Nat → α) (index size : Nat) : Option (Except (VErr α) Unit) :=
  match Inclusion index size with
  | .error _ => none
  | .ok nd =>
    match nd.Rehash (nd.IDs.map (nodeH hc f)) hc with
    | .error _ => none
    | .ok pf => some (VerifyInclusion hc index size (f index) pf (rootH hc f size))

/-- CLAIM C2 (code bug): `VerifyConsistency` rejects the canonical
consistency proof between sizes 6 and 7 (a known-good vector of the
repository's own verifier tests). The root1 recomputation folds the
ephemeral right-border hash of the tree of size 7 (the hash of leaf 6) into
the recomputed root of the tree of size 6, producing a `RootMismatchError`. -/
theorem canonical_consistency_rejected :
    canonicalConsistencyRun hcL fL 6 7 =
    some (.error (.rootMismatch 6 [7, 3, 1, 0, 1, 1, 2, 3, 1, 6, 1, 4, 5]
      [7, 3, 1, 0, 1, 1, 2, 3, 1, 4, 5])) := by
  simp [canonicalConsistencyRun, Consistency, trailingZeros, nodesFn, NewNodeID,
    NodeID.Coverage, NodeID.Parent, NodeID.Sibling, upSiblings, bitLen,
    RangeNodes, rangeNodesAux, Nodes.Rehash, rehashList, nodeH, subH, fL, hcL,
    VerifyConsistency, verify, RangeSize, chainInner, chainBorder, consInnerFold,
    rootH, tval]


/-! ### Compact ranges and `merkle.GetCompactRange`

The `compact.Range` type and its operations are modelled from the spec
(their implementation file is absent from the snapshot); `GetCompactRange`
and its `store`, `newRange`, `fetch` helpers translate `merkle.go`. Hash
values are byte strings (`List Nat`): a missing map entry in Go yields a nil
byte slice, modelled as `[]`. -/

/-- Errors of `merkle.GetCompactRange` and of the compact-range operations it
calls. Each constructor corresponds to one error-construction site:
`rangeOutOfBounds` to the bounds check, `getLeafHashesErr` and
`getConsistencyProofErr` to propagated `HashGetter` failures,
`leafCountMismatch` to the leaf-count check, `appendErr` to a wrapped
`Range.Append` failure, `consistencyCallErr` to a `proof.Consistency`
failure, `storeProofSizeMismatch` to the proof-size check inside the `store`
helper, `hashNotKnown` to the lookup failure inside the `newRange` helper,
`newRangeSizeMismatch` to the size validation of `RangeFactory.NewRange`,
and `corruptedRange` to the stack underflow inside `Range.Append`. -/
inductive MErr where
  | rangeOutOfBounds
  | getLeafHashesErr
  | leafCountMismatch (got want : Nat)
  | appendErr
  | consistencyCallErr
  | getConsistencyProofErr
  | storeProofSizeMismatch (got want : Nat)
  | hashNotKnown (id : NodeID)
  | newRangeSizeMismatch (got want : Nat)
  | corruptedRange
deriving DecidableEq, Repr

/-- Modelled from the spec: `compact.Range`, a compact range with its
half-open leaf interval and the hashes of its perfect decomposition. The Go
fields `begin` and `end` are named `rBegin` and `rEnd`. -/
structure CRange where
  rBegin : Nat
  rEnd : Nat
  hashes : List (List Nat)
deriving DecidableEq, Repr

/-- Modelled from the spec: `RangeFactory.NewEmptyRange(begin)`. -/
def NewEmptyRange (b : Nat) : CRange := ⟨b, b, []⟩

/-- Modelled from the spec: `RangeFactory.NewRange(begin, end, hashes)`
validates that the number of hashes equals `RangeSize(begin, end)` and fails
with a size-mismatch error otherwise. -/
def NewRange (b e : Nat) (hashes : List (List Nat)) : Except MErr CRange :=
  if hashes.length = RangeSize b e then .ok ⟨b, e, hashes⟩
  else .error (.newRangeSizeMismatch hashes.length (RangeSize b e))

/-- Modelled from the spec: the merge loop of `Range.Append`. The appended
hash `acc` stands for the node `(level, idx)`; while that node is a right
child (`idx` odd) whose left sibling lies inside the range
(`begin <= (idx-1) << level`), the sibling hash is popped off the stack (here
passed reversed, head = top) and combined, moving to the parent. A pop from
an empty stack is the unreachable corrupted-range failure. -/
def mergeLoop (hc : List Nat → List Nat → List Nat) (rb : Nat) (level idx : Nat)
    (acc : List Nat) (rstack : List (List Nat)) : Except MErr (List (List Nat)) :=
  if _hcnd : idx % 2 = 1 ∧ rb ≤ (idx - 1) <<< level then
    match rstack with
    | [] => .error .corruptedRange
    | top :: rest => mergeLoop hc rb (level + 1) (idx / 2) (hc top acc) rest
  else .ok (acc :: rstack)
termination_by idx
decreasing_by omega

/-- Modelled from the spec: `Range.Append(hash, visitor)` with the nil
visitor used by `merkle.go`: push the leaf hash for position `rEnd`, merge
completed sibling pairs, and advance `rEnd` by one. -/
def RangeAppend (hc : List Nat → List Nat → List Nat) (r : CRange)
    (h : List Nat) : Except MErr CRange :=
  (mergeLoop hc r.rBegin 0 r.rEnd h r.hashes.reverse).map
    (fun st => ⟨r.rBegin, r.rEnd + 1, st.reverse⟩)

/-- The `HashGetter` interface of `merkle.go`; `none` models a method
returning an error. -/
structure HashGetter where
  getConsistencyProof : Nat → Nat → Option (List (List Nat))
  getLeafHashes : Nat → Nat → Option (List (List Nat))

/-- The local `known` map of `GetCompactRange` as an association list; a new
binding is consed on, and lookup takes the most recent one, matching map
overwrite semantics. -/
def KnownMap : Type := List (NodeID × List Nat)

/-- Lookup in the `known` map. -/
def lookupKnown (k : KnownMap) (id : NodeID) : Option (List Nat) :=
  (List.find? (fun p => p.1 == id) k).map (fun p => p.2)

/-- The storing loop of the `store` helper: walk `idx` over the node IDs
while ranging over the hashes; when `idx` reaches the rehash window
(`idx = b` with a window of at least two nodes), skip that hash and set
`idx = e - 1`. An out-of-range `idx` (a panic in Go, unreachable through
`GetCompactRange`) skips the insertion. -/
def storeLoop (ids : List NodeID) (b e : Nat) : Nat → List (List Nat) → KnownMap → KnownMap
  | _, [], k => k
  | idx, hash :: rest, k =>
    if idx = b ∧ b + 1 < e then storeLoop ids b e (e - 1) rest k
    else
      match ids.get? idx with
      | some id => storeLoop ids b e (idx + 1) rest ((id, hash) :: k)
      | none => storeLoop ids b e (idx + 1) rest k

/-- The `store` helper of `GetCompactRange`: check the expected proof size
(`len(IDs) - (e - b)`, plus one when the window is non-empty), then record
the hashes under their node IDs. Returns the updated map together with the
error value, which the caller discards. The Go `wantSize` arithmetic is on
`int`; through `GetCompactRange` the window satisfies `e - b <= len(IDs)`
(claim C5), so the `Nat` truncation is never exercised. -/
def store (nodes : Nodes) (hashes : List (List Nat)) (k : KnownMap) :
    KnownMap × Except MErr Unit :=
  let b := nodes.beginIdx
  let e := nodes.endIdx
  let wantSize := nodes.IDs.length - (e - b) + (if b ≠ e then 1 else 0)
  if hashes.length ≠ wantSize then
    (k, .error (.storeProofSizeMismatch hashes.length wantSize))
  else (storeLoop nodes.IDs b e 0 hashes k, .ok ())

/-- The `fetch` helper of `GetCompactRange`: compute the consistency proof
shape, ask the getter for the proof hashes, and hand both to `store`. The
error result of `store` is discarded (as at the call site in the source);
only its map updates are kept. -/
def fetch (hg : HashGetter) (first second : Nat) (k : KnownMap) :
    Except MErr KnownMap :=
  match Consistency first second with
  | .error _ => .error .consistencyCallErr
  | .ok nodes =>
    match hg.getConsistencyProof first second with
    | none => .error .getConsistencyProofErr
    | some hashes => .ok (store nodes hashes k).1

/-- The hash-collection loop of the `newRange` helper: look up every node ID
in the `known` map, failing on the first missing one. -/
def collectKnown (k : KnownMap) : List NodeID → Except MErr (List (List Nat))
  | [] => .ok []
  | id :: rest =>
    match lookupKnown k id with
    | some h => (collectKnown k rest).map (fun t => h :: t)
    | none => .error (.hashNotKnown id)

/-- The `newRange` helper of `GetCompactRange`: assemble the range
`[b, e)` from the known hashes of its perfect decomposition. -/
def newRangeFromKnown (k : KnownMap) (b e : Nat) : Except MErr CRange :=
  match collectKnown k (RangeNodes b e) with
  | .error er => .error er
  | .ok hashes => NewRange b e hashes

/-- The leaf-appending loop of the trivial branch of `GetCompactRange`, with
the Go `Append: ...` error wrapping. -/
def appendAll (hc : List Nat → List Nat → List Nat) :
    CRange → List (List Nat) → Except MErr CRange
  | r, [] => .ok r
  | r, h :: t =>
    match RangeAppend hc r h with
    | .error _ => .error .appendErr
    | .ok r2 => appendAll hc r2 t

/-- The final appending loop of `GetCompactRange`
(`for index := r.End(); index < end; index++`), counted by the number of
remaining appends (each successful `RangeAppend` advances `rEnd` by one). -/
def appendLoop (hc : List Nat → List Nat → List Nat) (k : KnownMap) :
    Nat → CRange → Except MErr CRange
  | 0, r => .ok r
  | n + 1, r =>
    match RangeAppend hc r ((lookupKnown k (NewNodeID 0 r.rEnd)).getD []) with
    | .error _ => .error .appendErr
    | .ok r2 => appendLoop hc k n r2

/-- `merkle.GetCompactRange(rf, begin, end, size, hg)`; the factory is
represented by its children hasher `hc`. -/
def GetCompactRange (hc : List Nat → List Nat → List Nat) (b e size : Nat)
    (hg : HashGetter) : Except MErr CRange :=
  if b > size ∨ e > size then .error .rangeOutOfBounds
  else if b ≥ e then .ok (NewEmptyRange b)
  else if size ≤ 3 ∨ e = 1 then
    match hg.getLeafHashes b e with
    | none => .error .getLeafHashesErr
    | some hashes =>
      if hashes.length ≠ e - b then .error (.leafCountMismatch hashes.length (e - b))
      else appendAll hc (NewEmptyRange b) hashes
  else
    let mid := b + (Decompose b e).1
    match fetch hg b mid [] with
    | .error er => .error er
    | .ok k1 =>
      match (if (b = 0 ∧ e = 2) ∨ e = 3 then fetch hg 3 4 k1 else .ok k1) with
      | .error er => .error er
      | .ok k2 =>
        if e ≤ 3 then newRangeFromKnown k2 b e
        else if (e - 1) &&& (e - 2) ≠ 0 then
          match fetch hg (e - 1) e k2 with
          | .error er => .error er
          | .ok k3 =>
            match newRangeFromKnown k3 b (e - 1) with
            | .error er => .error er
            | .ok r =>
              match RangeAppend hc r ((lookupKnown k3 (NewNodeID 0 (e - 1))).getD []) with
              | .error _ => .error .appendErr
              | .ok r2 => .ok r2
        else
          match fetch hg (e - 2) e k2 with
          | .error er => .error er
          | .ok k3 =>
            match (if b < e - 2 then newRangeFromKnown k3 b (e - 2)
              else .ok (NewEmptyRange b)) with
            | .error er => .error er
            | .ok r => appendLoop hc k3 (e - r.rEnd) r


/-- Witness for `nodes_window_invariants` at concrete inputs. -/
theorem nodes_window_invariants_witness :
    Inclusion 1 3 = .ok ⟨[⟨0, 0⟩, ⟨0, 2⟩], 0, 0, ⟨1, 1⟩⟩ ∧
    ((0 : Nat) ≤ 0 ∧ 0 ≤ ([(⟨0, 0⟩ : NodeID), ⟨0, 2⟩]).length ∧
      ((0 : Nat) - 0 = 0 ∨ 2 ≤ (0 : Nat) - 0)) ∧
    Consistency 6 8 = .ok ⟨[⟨1, 2⟩, ⟨1, 3⟩, ⟨2, 0⟩], 0, 0, ⟨3, 1⟩⟩ ∧
    ((0 : Nat) ≤ 0 ∧ 0 ≤ ([(⟨1, 2⟩ : NodeID), ⟨1, 3⟩, ⟨2, 0⟩]).length ∧
      ((0 : Nat) - 0 = 0 ∨ 2 ≤ (0 : Nat) - 0)) := by
  have hI : Inclusion 1 3 = .ok ⟨[⟨0, 0⟩, ⟨0, 2⟩], 0, 0, ⟨1, 1⟩⟩ := by
    simp [Inclusion, nodesFn, NewNodeID, NodeID.Coverage, NodeID.Parent,
      NodeID.Sibling, upSiblings, bitLen, RangeNodes, rangeNodesAux]
  exact ⟨hI, nodes_window_invariants.1 1 3 _ hI, consistency_6_8,
    nodes_window_invariants.2 6 8 _ consistency_6_8⟩


/-- `fetch` only fails with a consistency-shape or a getter error. -/
theorem fetch_error_kinds (hg : HashGetter) (first second : Nat) (k : KnownMap)
    (er : MErr) (h : fetch hg first second k = .error er) :
    er = .consistencyCallErr ∨ er = .getConsistencyProofErr := by
  unfold fetch at h
  split at h
  · cases h
    exact Or.inl rfl
  · split at h
    · cases h
      exact Or.inr rfl
    · cases h

/-- The conditional `fetch` at the second call site, same error kinds. -/
theorem fetch_if_error_kinds {c : Prop} [Decidable c] (hg : HashGetter)
    (first second : Nat) (k : KnownMap) (er : MErr)
    (h : (if c then fetch hg first second k else .ok k) = .error er) :
    er = .consistencyCallErr ∨ er = .getConsistencyProofErr := by
  split at h
  · exact fetch_error_kinds _ _ _ _ _ h
  · cases h

/-- The hash-collection loop only fails with a hash-not-known error. -/
theorem collectKnown_error_kinds (k : KnownMap) (ids : List NodeID) (er : MErr)
    (h : collectKnown k ids = .error er) : ∃ id, er = .hashNotKnown id := by
  induction ids with
  | nil => cases h
  | cons id rest ih =>
    rw [collectKnown] at h
    split at h
    · cases hrec : collectKnown k rest with
      | error er2 =>
        rw [hrec] at h
        injection h with h
        subst h
        exact ih hrec
      | ok t =>
        rw [hrec] at h
        cases h
    · cases h
      exact ⟨id, rfl⟩

/-- The `newRange` helper only fails with hash-not-known or size-mismatch. -/
theorem newRangeFromKnown_error_kinds (k : KnownMap) (b e : Nat) (er : MErr)
    (h : newRangeFromKnown k b e = .error er) :
    (∃ id, er = .hashNotKnown id) ∨ ∃ g w, er = .newRangeSizeMismatch g w := by
  unfold newRangeFromKnown at h
  split at h
  · rename_i er2 heq
    cases h
    exact Or.inl (collectKnown_error_kinds _ _ _ heq)
  · rename_i hs heq
    unfold NewRange at h
    split at h
    · cases h
    · cases h
      exact Or.inr ⟨_, _, rfl⟩

/-- The leaf-appending loop only fails with the wrapped append error. -/
theorem appendAll_error_kinds (hc : List Nat → List Nat → List Nat) (r : CRange)
    (l : List (List Nat)) (er : MErr) (h : appendAll hc r l = .error er) :
    er = .appendErr := by
  induction l generalizing r with
  | nil => cases h
  | cons x t ih =>
    rw [appendAll] at h
    split at h
    · cases h
      rfl
    · exact ih _ h

/-- The final appending loop only fails with the wrapped append error. -/
theorem appendLoop_error_kinds (hc : List Nat → List Nat → List Nat)
    (k : KnownMap) (n : Nat) (r : CRange) (er : MErr)
    (h : appendLoop hc k n r = .error er) : er = .appendErr := by
  induction n generalizing r with
  | zero => cases h
  | succ m ih =>
    rw [appendLoop] at h
    split at h
    · cases h
      rfl
    · exact ih _ h

/-- CLAIM C10. `GetCompactRange` never returns the proof-size-mismatch error
constructed inside its `store` helper: the error result of `store` is
discarded at its only call site inside `fetch`, so a consistency proof of
unexpected length never fails the call at the point of fetching. -/
theorem getCompactRange_no_store_error (hc : List Nat → List Nat → List Nat)
    (b e size : Nat) (hg : HashGetter) (got want : Nat) :
    GetCompactRange hc b e size hg ≠ .error (.storeProofSizeMismatch got want) := by
  intro h
  unfold GetCompactRange at h
  split at h
  · simp at h
  · split at h
    · simp at h
    · split at h
      · -- trivial leaf branch
        cases hlh : hg.getLeafHashes b e with
        | none =>
          simp only [hlh] at h
          simp at h
        | some hs =>
          simp only [hlh] at h
          split at h
          · simp at h
          · have hk := appendAll_error_kinds _ _ _ _ h
            simp at hk
      · -- main branch
        cases hf1 : fetch hg b (b + (Decompose b e).1) [] with
        | error er =>
          simp only [hf1] at h
          injection h with h
          subst h
          rcases fetch_error_kinds _ _ _ _ _ hf1 with hk | hk <;> simp at hk
        | ok k1 =>
          simp only [hf1] at h
          cases hf2 : (if (b = 0 ∧ e = 2) ∨ e = 3 then fetch hg 3 4 k1 else Except.ok k1) with
          | error er =>
            simp only [hf2] at h
            injection h with h
            subst h
            rcases fetch_if_error_kinds _ _ _ _ _ hf2 with hk | hk <;> simp at hk
          | ok k2 =>
            simp only [hf2] at h
            by_cases he3 : e ≤ 3
            · rw [if_pos he3] at h
              rcases newRangeFromKnown_error_kinds _ _ _ _ h with ⟨i, hk⟩ | ⟨g, w, hk⟩ <;>
                simp at hk
            · rw [if_neg he3] at h
              by_cases hpow : (e - 1) &&& (e - 2) ≠ 0
              · rw [if_pos hpow] at h
                cases hf3 : fetch hg (e - 1) e k2 with
                | error er =>
                  simp only [hf3] at h
                  injection h with h
                  subst h
                  rcases fetch_error_kinds _ _ _ _ _ hf3 with hk | hk <;> simp at hk
                | ok k3 =>
                  simp only [hf3] at h
                  cases hnr : newRangeFromKnown k3 b (e - 1) with
                  | error er =>
                    simp only [hnr] at h
                    injection h with h
                    subst h
                    rcases newRangeFromKnown_error_kinds _ _ _ _ hnr with
                      ⟨i, hk⟩ | ⟨g, w, hk⟩ <;> simp at hk
                  | ok r =>
                    simp only [hnr] at h
                    cases hra : RangeAppend hc r ((lookupKnown k3 (NewNodeID 0 (e - 1))).getD []) with
                    | error er2 =>
                      simp only [hra] at h
                      simp at h
                    | ok r2 =>
                      simp only [hra] at h
                      simp at h
              · rw [if_neg hpow] at h
                cases hf3 : fetch hg (e - 2) e k2 with
                | error er =>
                  simp only [hf3] at h
                  injection h with h
                  subst h
                  rcases fetch_error_kinds _ _ _ _ _ hf3 with hk | hk <;> simp at hk
                | ok k3 =>
                  simp only [hf3] at h
                  cases hnr : (if b < e - 2 then newRangeFromKnown k3 b (e - 2)
                      else Except.ok (NewEmptyRange b)) with
                  | error er =>
                    simp only [hnr] at h
                    injection h with h
                    subst h
                    by_cases hb2 : b < e - 2
                    · rw [if_pos hb2] at hnr
                      rcases newRangeFromKnown_error_kinds _ _ _ _ hnr with
                        ⟨i, hk⟩ | ⟨g, w, hk⟩ <;> simp at hk
                    · rw [if_neg hb2] at hnr
                      simp at hnr
                  | ok r =>
                    simp only [hnr] at h
                    have hk := appendLoop_error_kinds _ _ _ _ _ h
                    simp at hk


/-- CLAIM C8. The trivial branches of `GetCompactRange`: with
`begin = end <= size` it returns the empty range without consulting the
getter (the result is the same for every `HashGetter`); with
`begin < end <= size` and `size <= 3` or `end = 1` it returns the range built
by appending, in order, the hashes returned by `GetLeafHashes`, failing with
a count-mismatch error when the getter returns a number of hashes different
from `end - begin`; and out-of-bounds `begin` or `end` is an error. -/
theorem getCompactRange_trivial_cases (hc : List Nat → List Nat → List Nat) (size : Nat) :
    (∀ (b : Nat) (hg : HashGetter), b ≤ size →
      GetCompactRange hc b b size hg = .ok (NewEmptyRange b)) ∧
    (∀ (b e : Nat) (hg : HashGetter) (hs : List (List Nat)), b < e → e ≤ size →
      (size ≤ 3 ∨ e = 1) → hg.getLeafHashes b e = some hs →
      GetCompactRange hc b e size hg =
        (if hs.length = e - b then appendAll hc (NewEmptyRange b) hs
         else .error (.leafCountMismatch hs.length (e - b)))) ∧
    (∀ (b e : Nat) (hg : HashGetter), b > size ∨ e > size →
      GetCompactRange hc b e size hg = .error .rangeOutOfBounds) := by
  refine ⟨?_, ?_, ?_⟩
  · intro b hg hb
    unfold GetCompactRange
    rw [if_neg (by omega), if_pos (le_refl b)]
  · intro b e hg hs hbe hes htriv hget
    unfold GetCompactRange
    rw [if_neg (by omega), if_neg (by omega), if_pos htriv]
    simp only [hget]
    by_cases hlen : hs.length = e - b <;> simp [hlen]
  · intro b e hg h
    unfold GetCompactRange
    rw [if_pos h]

/-- A concrete `HashGetter` used by witnesses. -/
def hgW : HashGetter := ⟨fun _ _ => none, fun _ _ => some [[1], [2]]⟩

/-- Witness for `getCompactRange_trivial_cases` at concrete inputs. -/
theorem getCompactRange_trivial_cases_witness :
    (2 : Nat) ≤ 3 ∧ GetCompactRange hcL 2 2 3 hgW = .ok (NewEmptyRange 2) ∧
    (1 : Nat) < 3 ∧ (3 : Nat) ≤ 3 ∧ ((3 : Nat) ≤ 3 ∨ (3 : Nat) = 1) ∧
    hgW.getLeafHashes 1 3 = some [[1], [2]] ∧
    GetCompactRange hcL 1 3 3 hgW =
      (if ([[1], [2]] : List (List Nat)).length = 3 - 1
       then appendAll hcL (NewEmptyRange 1) [[1], [2]]
       else .error (.leafCountMismatch ([[1], [2]] : List (List Nat)).length (3 - 1))) ∧
    ((5 : Nat) > 3 ∨ (3 : Nat) > 3) ∧
    GetCompactRange hcL 5 3 3 hgW = .error .rangeOutOfBounds := by
  have hth := getCompactRange_trivial_cases hcL 3
  exact ⟨by decide, hth.1 2 hgW (by decide), by decide, by decide, Or.inl (by decide), rfl,
    hth.2.1 1 3 hgW [[1], [2]] (by decide) (by decide) (Or.inl (by decide)) rfl,
    Or.inl (by decide), hth.2.2 5 3 hgW (Or.inl (by decide))⟩


/-! ### CLAIM C1: the canonical inclusion round-trip

The proof stack: bit-length and xor arithmetic for the fork decomposition,
the sibling climb (`chainInner` over `upSiblings`), structural lemmas for
the spec-modelled range decomposition, the reconstruction of truncated
(ephemeral) node hashes (`foldNodes`/`tval`), the left-border fold, and the
`rehashList` window splice. -/

/-- `bitLen x ≤ k` iff `x < 2^k`. -/
theorem bitLen_le_iff (k : Nat) : ∀ x, bitLen x ≤ k ↔ x < 2 ^ k := by
  induction k with
  | zero =>
    intro x
    simp only [pow_zero, Nat.lt_one_iff, Nat.le_zero]
    rw [bitLen]
    split
    · rename_i hx; simp [hx]
    · rename_i hx
      constructor <;> intro h <;> omega
  | succ k ih =>
    intro x
    rw [bitLen]
    split
    · rename_i hx
      subst hx
      constructor
      · intro _; exact Nat.pos_pow_of_pos _ (by omega)
      · intro _; exact Nat.zero_le _
    · rename_i hx
      rw [Nat.succ_le_succ_iff, ih (x / 2), pow_succ]
      omega

theorem bitLen_eq_zero_iff (x : Nat) : bitLen x = 0 ↔ x = 0 := by
  have h := bitLen_le_iff 0 x
  simp at h
  omega

/-- Shifting right distributes over xor. -/
theorem shiftRight_xor_distrib (x y k : Nat) :
    (x ^^^ y) >>> k = (x >>> k) ^^^ (y >>> k) := by
  apply Nat.eq_of_testBit_eq
  intro i
  simp [Nat.testBit_shiftRight, Nat.testBit_xor]

/-- Two numbers agree above bit `k` iff their xor is below `2^k`. -/
theorem shiftRight_eq_iff_xor_lt (x y k : Nat) :
    x >>> k = y >>> k ↔ x ^^^ y < 2 ^ k := by
  constructor
  · intro h
    have h0 : (x ^^^ y) >>> k = 0 := by
      rw [shiftRight_xor_distrib, h, Nat.xor_self]
    rw [Nat.shiftRight_eq_div_pow] at h0
    exact (Nat.div_eq_zero_iff (Nat.pos_pow_of_pos _ (by omega))).1 h0
  · intro h
    have h0 : (x ^^^ y) >>> k = 0 := by
      rw [Nat.shiftRight_eq_div_pow]
      exact Nat.div_eq_of_lt h
    rw [shiftRight_xor_distrib] at h0
    exact Nat.xor_eq_zero.1 h0

theorem xor_one_even {i : Nat} (h : i % 2 = 0) : i ^^^ 1 = i + 1 := by
  apply Nat.eq_of_testBit_eq
  intro j
  cases j with
  | zero =>
    simp [Nat.testBit_xor, Nat.testBit_zero, h]
    try omega
  | succ j =>
    have h2 : (i + 1) / 2 = i / 2 := by omega
    have hb : (1 : Nat).testBit (j + 1) = false := by simp [Nat.testBit_succ]
    rw [Nat.testBit_xor, hb, Bool.xor_false, Nat.testBit_succ, Nat.testBit_succ, h2]

theorem xor_one_odd {i : Nat} (h : i % 2 = 1) : i ^^^ 1 = i - 1 := by
  apply Nat.eq_of_testBit_eq
  intro j
  cases j with
  | zero =>
    simp [Nat.testBit_xor, Nat.testBit_zero, h]
    try omega
  | succ j =>
    have h2 : (i - 1) / 2 = i / 2 := by omega
    have hb : (1 : Nat).testBit (j + 1) = false := by simp [Nat.testBit_succ]
    rw [Nat.testBit_xor, hb, Bool.xor_false, Nat.testBit_succ, Nat.testBit_succ, h2]

/-- The sibling-collection loop emits exactly `k` siblings. -/
theorem upSiblings_length (k : Nat) : ∀ node, (upSiblings k node).1.length = k := by
  induction k with
  | zero => intro node; rfl
  | succ k ih => intro node; simp [upSiblings, ih]

/-- The final node of the sibling-collection loop: `k` levels up. -/
theorem upSiblings_snd (k : Nat) :
    ∀ l i, (upSiblings k ⟨l, i⟩).2 = ⟨l + k, i >>> k⟩ := by
  induction k with
  | zero => intro l i; simp [upSiblings]
  | succ k ih =>
    intro l i
    simp only [upSiblings, NodeID.Parent, ih (l + 1) (i / 2)]
    have h1 : l + 1 + k = l + (k + 1) := by omega
    have h2 : (i / 2) >>> k = i >>> (k + 1) := by
      rw [Nat.shiftRight_eq_div_pow, Nat.shiftRight_eq_div_pow, Nat.div_div_eq_div_mul,
        pow_succ]
      ring_nf
    rw [h1, h2]

/-- Folding the canonical hashes of the collected siblings with `chainInner`
climbs the canonical tree: from `(l, i)` to `(l + k, i >>> k)`. -/
theorem chainInner_upSiblings {α : Type} (hc : α → α → α) (f : Nat → α) (k : Nat) :
    ∀ l i, chainInner hc i (subH hc f l i) ((upSiblings k ⟨l, i⟩).1.map (nodeH hc f)) =
      subH hc f (l + k) (i >>> k) := by
  induction k with
  | zero => intro l i; simp [upSiblings, chainInner]
  | succ k ih =>
    intro l i
    simp only [upSiblings, NodeID.Parent, NodeID.Sibling, List.map_cons, chainInner]
    have hstep : (if i % 2 = 0 then hc (subH hc f l i) (nodeH hc f ⟨l, i ^^^ 1⟩)
        else hc (nodeH hc f ⟨l, i ^^^ 1⟩) (subH hc f l i)) = subH hc f (l + 1) (i / 2) := by
      rcases Nat.mod_two_eq_zero_or_one i with hp | hp
      · rw [if_pos hp, xor_one_even hp]
        simp only [nodeH, subH]
        rw [show 2 * (i / 2) = i by omega]
      · rw [if_neg (by omega), xor_one_odd hp]
        simp only [nodeH, subH]
        rw [show 2 * (i / 2) = i - 1 by omega, show i - 1 + 1 = i by omega]
    rw [hstep, ih (l + 1) (i / 2)]
    have h1 : l + 1 + k = l + (k + 1) := by omega
    have h2 : (i / 2) >>> k = i >>> (k + 1) := by
      rw [Nat.shiftRight_eq_div_pow, Nat.shiftRight_eq_div_pow, Nat.div_div_eq_div_mul,
        pow_succ]
      ring_nf
    rw [h1, h2]

/-- A node whose coverage lies entirely inside the tree is perfect: its
truncated hash is the perfect-subtree hash. -/
theorem tval_perf {α : Type} (hc : α → α → α) (f : Nat → α) (sz : Nat) (M : Nat) :
    ∀ J, (J + 1) * 2 ^ M ≤ sz → tval hc f sz M J = subH hc f M J := by
  induction M with
  | zero => intro J _; rfl
  | succ M ih =>
    intro J hJ
    have hpow : 0 < 2 ^ M := Nat.pos_pow_of_pos _ (by omega)
    have heq : (J + 1) * 2 ^ (M + 1) = (2 * J + 1) * 2 ^ M + 2 ^ M := by ring
    have hcond : (2 * J + 1) <<< M < sz := by
      rw [Nat.shiftLeft_eq]
      omega
    have harg : (2 * J + 1 + 1) * 2 ^ M ≤ sz := by
      have : (2 * J + 1 + 1) * 2 ^ M = (2 * J + 1) * 2 ^ M + 2 ^ M := by ring
      omega
    rw [tval, if_pos hcond, ih (2 * J + 1) harg]
    rfl

/-- Above the top of the tree the truncated hashes stabilise at the root. -/
theorem tval_top {α : Type} (hc : α → α → α) (f : Nat → α) (sz : Nat) (M : Nat) :
    sz ≤ 2 ^ M → tval hc f sz M 0 = rootH hc f sz := by
  induction M with
  | zero =>
    intro h
    have h0 : bitLen (sz - 1) = 0 := (bitLen_eq_zero_iff _).2 (by simp at h; omega)
    rw [rootH, h0]
  | succ M ih =>
    intro h
    have hpow : 0 < 2 ^ M := Nat.pos_pow_of_pos _ (by omega)
    by_cases hsz : sz ≤ 2 ^ M
    · have hcond : ¬ ((2 * 0 + 1) <<< M < sz) := by
        rw [Nat.shiftLeft_eq]
        omega
      rw [tval, if_neg hcond]
      exact ih hsz
    · have hbl : bitLen (sz - 1) = M + 1 := by
        have h1 : bitLen (sz - 1) ≤ M + 1 := (bitLen_le_iff _ _).2 (by rw [pow_succ] at h ⊢; omega)
        have h2 : ¬ bitLen (sz - 1) ≤ M := fun hx => by
          have := (bitLen_le_iff _ _).1 hx
          omega
        omega
      rw [rootH, hbl]

/-- An empty range decomposes to nothing. -/
theorem rangeNodesAux_nil {l b e : Nat} (h : e ≤ b) : rangeNodesAux l b e = ([], []) := by
  rw [rangeNodesAux, if_neg (by omega)]

/-- A range starting at zero has an empty left border. -/
theorem rangeNodesAux_left_nil (e : Nat) : ∀ l, (rangeNodesAux l 0 e).1 = [] := by
  induction e using Nat.strong_induction_on with
  | _ e ih =>
    intro l
    rw [rangeNodesAux]
    by_cases hlt : 0 < e
    · rw [if_pos hlt]
      simp only [Nat.zero_mod, Nat.add_zero, Nat.zero_div]
      rw [if_neg (by omega)]
      simp only [List.nil_append]
      exact ih ((e - e % 2) / 2) (by omega) (l + 1)
    · rw [if_neg hlt]

/-- Halving an even range starting at zero drops one level. -/
theorem rangeNodesAux_halve {e : Nat} (h : e % 2 = 0) (l : Nat) :
    (rangeNodesAux l 0 e).2 = (rangeNodesAux (l + 1) 0 (e / 2)).2 := by
  by_cases h0 : 0 < e
  · rw [rangeNodesAux, if_pos h0]
    simp only [Nat.zero_mod, Nat.add_zero, Nat.zero_div]
    rw [if_neg (by omega), show (e - e % 2) / 2 = e / 2 by omega]
    simp
  · rw [rangeNodesAux_nil (by omega), rangeNodesAux_nil (by omega)]

/-- A nonempty range decomposes to at least one node. -/
theorem rangeNodesAux_len_pos (e : Nat) : ∀ l b, b < e →
    1 ≤ (rangeNodesAux l b e).1.length + (rangeNodesAux l b e).2.length := by
  induction e using Nat.strong_induction_on with
  | _ e ih =>
    intro l b hlt
    rw [rangeNodesAux, if_pos hlt]
    rcases Nat.mod_two_eq_zero_or_one b with hb | hb
    · rcases Nat.mod_two_eq_zero_or_one e with he | he
      · rw [if_neg (by omega), if_neg (by omega)]
        simp only [List.nil_append, List.append_nil]
        exact ih ((e - e % 2) / 2) (by omega) (l + 1) ((b + b % 2) / 2) (by omega)
      · rw [if_neg (by omega), if_pos he]
        simp
        omega
    · rw [if_pos hb]
      simp
      omega

/-- A perfect range decomposes to the single node covering it. -/
theorem rangeNodesAux_perfect (L : Nat) : ∀ l I,
    rangeNodesAux l (I * 2 ^ L) ((I + 1) * 2 ^ L) =
      (if I % 2 = 1 then ([⟨l + L, I⟩], []) else ([], [⟨l + L, I⟩])) := by
  induction L with
  | zero =>
    intro l I
    simp only [pow_zero, Nat.mul_one]
    rw [rangeNodesAux, if_pos (by omega)]
    rcases Nat.mod_two_eq_zero_or_one I with hI | hI
    · rw [if_neg (by omega)]
      rw [show (I + I % 2) / 2 = I / 2 by omega, show (I + 1 - (I + 1) % 2) / 2 = I / 2 by omega]
      rw [rangeNodesAux_nil (le_refl _)]
      rw [if_pos (by omega : (I + 1) % 2 = 1)]
      simp [hI]
    · rw [if_pos hI]
      rw [show (I + I % 2) / 2 = (I + 1) / 2 by omega, show (I + 1 - (I + 1) % 2) / 2 = (I + 1) / 2 by omega]
      rw [rangeNodesAux_nil (le_refl _)]
      rw [if_neg (by omega : ¬ (I + 1) % 2 = 1)]
      simp [hI]
  | succ L ih =>
    intro l I
    have hpow : 0 < 2 ^ L := Nat.pos_pow_of_pos _ (by omega)
    have hb : I * 2 ^ (L + 1) = 2 * (I * 2 ^ L) := by ring
    have he : (I + 1) * 2 ^ (L + 1) = 2 * ((I + 1) * 2 ^ L) := by ring
    have hrel : (I + 1) * 2 ^ L = I * 2 ^ L + 2 ^ L := by ring
    rw [rangeNodesAux, if_pos (by omega)]
    rw [show (I * 2 ^ (L + 1) + I * 2 ^ (L + 1) % 2) / 2 = I * 2 ^ L by omega,
      show ((I + 1) * 2 ^ (L + 1) - (I + 1) * 2 ^ (L + 1) % 2) / 2 = (I + 1) * 2 ^ L by omega]
    rw [if_neg (by omega : ¬ I * 2 ^ (L + 1) % 2 = 1),
      if_neg (by omega : ¬ (I + 1) * 2 ^ (L + 1) % 2 = 1)]
    rw [ih (l + 1) I]
    rcases Nat.mod_two_eq_zero_or_one I with hI | hI
    · rw [if_neg (by omega), if_neg (by omega)]
      simp
      omega
    · rw [if_pos hI, if_pos hI]
      simp
      omega

/-- Splitting a range that fills its upper node only partially: the first
covered half is emitted as one perfect node heading the right border, and
the rest decomposes within the second half. -/
theorem rangeNodesAux_split (L : Nat) : ∀ l I sz,
    (2 * I + 1) * 2 ^ L ≤ sz → sz < (2 * I + 2) * 2 ^ L →
    (rangeNodesAux l (2 * I * 2 ^ L) sz).1 = [] ∧
    (rangeNodesAux l (2 * I * 2 ^ L) sz).2 =
      ⟨l + L, 2 * I⟩ :: (rangeNodesAux l ((2 * I + 1) * 2 ^ L) sz).2 ∧
    (rangeNodesAux l ((2 * I + 1) * 2 ^ L) sz).1 = [] := by
  induction L with
  | zero =>
    intro l I sz h1 h2
    simp only [pow_zero, Nat.mul_one] at h1 h2 ⊢
    have hsz : sz = 2 * I + 1 := by omega
    subst hsz
    rw [rangeNodesAux, if_pos (by omega)]
    rw [show (2 * I + 2 * I % 2) / 2 = I by omega,
      show (2 * I + 1 - (2 * I + 1) % 2) / 2 = I by omega]
    rw [rangeNodesAux_nil (le_refl _)]
    rw [if_neg (by omega : ¬ 2 * I % 2 = 1), if_pos (by omega : (2 * I + 1) % 2 = 1)]
    rw [rangeNodesAux_nil (le_refl _)]
    simp
  | succ L ih =>
    intro l I sz h1 h2
    have hpow : 0 < 2 ^ L := Nat.pos_pow_of_pos _ (by omega)
    have hb : 2 * I * 2 ^ (L + 1) = 2 * (2 * I * 2 ^ L) := by ring
    have hb2 : (2 * I + 1) * 2 ^ (L + 1) = 2 * ((2 * I + 1) * 2 ^ L) := by ring
    have hc2 : (2 * I + 2) * 2 ^ (L + 1) = 2 * ((2 * I + 2) * 2 ^ L) := by ring
    have hr1 : (2 * I + 1) * 2 ^ L = 2 * I * 2 ^ L + 2 ^ L := by ring
    have hr2 : (2 * I + 2) * 2 ^ L = 2 * I * 2 ^ L + 2 ^ L + 2 ^ L := by ring
    have hih := ih (l + 1) I (sz / 2) (by omega) (by omega)
    have hsecond : (rangeNodesAux l ((2 * I + 1) * 2 ^ (L + 1)) sz).2 =
        (rangeNodesAux (l + 1) ((2 * I + 1) * 2 ^ L) (sz / 2)).2 ++
          (if sz % 2 = 1 then [⟨l, sz - 1⟩] else []) := by
      by_cases hlt : (2 * I + 1) * 2 ^ (L + 1) < sz
      · rw [rangeNodesAux, if_pos hlt,
          show ((2 * I + 1) * 2 ^ (L + 1) + (2 * I + 1) * 2 ^ (L + 1) % 2) / 2 =
            (2 * I + 1) * 2 ^ L by omega,
          show (sz - sz % 2) / 2 = sz / 2 by omega]
      · rw [rangeNodesAux_nil (by omega),
          show sz / 2 = (2 * I + 1) * 2 ^ L by omega,
          rangeNodesAux_nil (le_refl _), if_neg (by omega : ¬ sz % 2 = 1)]
        simp
    refine ⟨?_, ?_, ?_⟩
    · rw [rangeNodesAux, if_pos (by omega),
        show (2 * I * 2 ^ (L + 1) + 2 * I * 2 ^ (L + 1) % 2) / 2 = 2 * I * 2 ^ L by omega,
        show (sz - sz % 2) / 2 = sz / 2 by omega,
        if_neg (by omega : ¬ 2 * I * 2 ^ (L + 1) % 2 = 1)]
      simp only [List.nil_append]
      exact hih.1
    · rw [rangeNodesAux, if_pos (by omega),
        show (2 * I * 2 ^ (L + 1) + 2 * I * 2 ^ (L + 1) % 2) / 2 = 2 * I * 2 ^ L by omega,
        show (sz - sz % 2) / 2 = sz / 2 by omega, hsecond]
      simp only [hih.2.1]
      simp
      omega
    · by_cases hlt : (2 * I + 1) * 2 ^ (L + 1) < sz
      · rw [rangeNodesAux, if_pos hlt,
          show ((2 * I + 1) * 2 ^ (L + 1) + (2 * I + 1) * 2 ^ (L + 1) % 2) / 2 =
            (2 * I + 1) * 2 ^ L by omega,
          show (sz - sz % 2) / 2 = sz / 2 by omega,
          if_neg (by omega : ¬ (2 * I + 1) * 2 ^ (L + 1) % 2 = 1)]
        simp only [List.nil_append]
        exact hih.2.2
      · rw [rangeNodesAux_nil (by omega)]

/-- For odd `J`, the range `[0, J * 2^M)` decomposes as the decomposition of
`[0, (J-1) * 2^M)` followed by the perfect node `(M, J-1)`. -/
theorem rangeNodesAux_zero_split (M : Nat) : ∀ l J, J % 2 = 1 →
    (rangeNodesAux l 0 (J * 2 ^ M)).2 =
      (rangeNodesAux l 0 ((J - 1) * 2 ^ M)).2 ++ [⟨l + M, J - 1⟩] := by
  induction M with
  | zero =>
    intro l J hJ
    simp only [pow_zero, Nat.mul_one]
    rw [rangeNodesAux, if_pos (by omega)]
    rw [show (0 + 0 % 2) / 2 = 0 by omega, show (J - J % 2) / 2 = (J - 1) / 2 by omega]
    rw [if_pos hJ]
    rw [rangeNodesAux_halve (by omega : (J - 1) % 2 = 0) l,
      show (J - 1) / 2 = (J - 1) / 2 from rfl]
    rfl
  | succ M ih =>
    intro l J hJ
    have hpow : 0 < 2 ^ M := Nat.pos_pow_of_pos _ (by omega)
    have h1 : J * 2 ^ (M + 1) = 2 * (J * 2 ^ M) := by ring
    have h2 : (J - 1) * 2 ^ (M + 1) = 2 * ((J - 1) * 2 ^ M) := by
      rw [pow_succ]; ring
    rw [rangeNodesAux_halve (by omega) l, show J * 2 ^ (M + 1) / 2 = J * 2 ^ M by omega]
    rw [ih (l + 1) J hJ]
    rw [rangeNodesAux_halve (by omega) l, show (J - 1) * 2 ^ (M + 1) / 2 = (J - 1) * 2 ^ M by omega]
    simp
    omega

/-- Right-nested fold of the canonical hashes of a node list, as the verifier
reconstructs an ephemeral node from the compact range covering it: the
repository hashes `hc a (hc b (hc c d))` for nodes `[a, b, c, d]`. -/
def foldNodes {α : Type} (hc : α → α → α) (f : Nat → α) : List NodeID → Option α
  | [] => none
  | [a] => some (nodeH hc f a)
  | a :: b :: t =>
    match foldNodes hc f (b :: t) with
    | none => none
    | some x => some (hc (nodeH hc f a) x)

theorem foldNodes_cons {α : Type} (hc : α → α → α) (f : Nat → α) (a : NodeID)
    (t : List NodeID) (x : α) (h : foldNodes hc f t = some x) :
    foldNodes hc f (a :: t) = some (hc (nodeH hc f a) x) := by
  cases t with
  | nil => simp [foldNodes] at h
  | cons b t => rw [foldNodes, h]

/-- Folding the compact range covering `[J * 2^M, sz)` inside the node
`(M, J)` reconstructs the truncated node hash `tval sz M J`. -/
theorem rangeNodes_fold {α : Type} (hc : α → α → α) (f : Nat → α) (M : Nat) :
    ∀ J sz, J * 2 ^ M < sz → sz ≤ (J + 1) * 2 ^ M →
    foldNodes hc f (RangeNodes (J * 2 ^ M) sz) = some (tval hc f sz M J) := by
  induction M with
  | zero =>
    intro J sz hl hr
    simp only [pow_zero, Nat.mul_one] at hl hr ⊢
    have hsz : sz = J + 1 := by omega
    subst hsz
    have hp := rangeNodesAux_perfect 0 0 J
    simp only [pow_zero, Nat.mul_one] at hp
    rw [RangeNodes, hp]
    rcases Nat.mod_two_eq_zero_or_one J with hJ | hJ
    · rw [if_neg (by omega)]
      rfl
    · rw [if_pos hJ]
      rfl
  | succ M ih =>
    intro J sz hl hr
    have hpow : 0 < 2 ^ M := Nat.pos_pow_of_pos _ (by omega)
    have he1 : J * 2 ^ (M + 1) = 2 * J * 2 ^ M := by ring
    have he2 : (J + 1) * 2 ^ (M + 1) = (2 * J + 2) * 2 ^ M := by ring
    have hr1 : (2 * J + 1) * 2 ^ M = 2 * J * 2 ^ M + 2 ^ M := by ring
    have hr2 : (2 * J + 2) * 2 ^ M = 2 * J * 2 ^ M + 2 ^ M + 2 ^ M := by ring
    by_cases hmid : (2 * J + 1) * 2 ^ M < sz
    · by_cases htop : sz < (2 * J + 2) * 2 ^ M
      · -- split into the perfect left half and the truncated right half
        have hsp := rangeNodesAux_split M 0 J sz (by omega) htop
        rw [RangeNodes, he1, hsp.1, hsp.2.1]
        simp only [List.nil_append]
        have hd : (2 * J + 1 + 1) * 2 ^ M = (2 * J + 2) * 2 ^ M := by ring
        have hih := ih (2 * J + 1) sz hmid (by omega)
        rw [RangeNodes] at hih
        rw [hsp.2.2] at hih
        simp only [List.nil_append] at hih
        have hne := rangeNodesAux_len_pos sz 0 ((2 * J + 1) * 2 ^ M) hmid
        rw [hsp.2.2] at hne
        simp at hne
        rw [foldNodes_cons hc f _ _ _ hih]
        rw [tval, if_pos (by rw [Nat.shiftLeft_eq]; omega)]
        simp [nodeH]
      · -- the whole node is inside the tree: a single perfect node
        have hsz : sz = (2 * J + 2) * 2 ^ M := by omega
        have hperf : sz = (J + 1) * 2 ^ (M + 1) := by omega
        rw [RangeNodes, hperf, rangeNodesAux_perfect (M + 1) 0 J]
        have htv2 : tval hc f ((J + 1) * 2 ^ (M + 1)) (M + 1) J = subH hc f (M + 1) J :=
          tval_perf hc f ((J + 1) * 2 ^ (M + 1)) (M + 1) J (le_refl _)
        rcases Nat.mod_two_eq_zero_or_one J with hJ | hJ
        · rw [if_neg (by omega)]
          simp [foldNodes, htv2, nodeH]
        · rw [if_pos hJ]
          simp [foldNodes, htv2, nodeH]
    · -- the range stays in the left half
      have hih := ih (2 * J) sz (by omega) (by omega)
      rw [show 2 * J * 2 ^ M = J * 2 ^ (M + 1) by ring] at hih
      rw [hih, tval, if_neg (by rw [Nat.shiftLeft_eq]; omega)]

/-- Folding the reversed left border of `[0, J * 2^M)` onto the truncated
hash of node `(M, J)` with `chainBorder` reconstructs the canonical root. -/
theorem border_fold {α : Type} (hc : α → α → α) (f : Nat → α) :
    ∀ J, ∀ M sz, J * 2 ^ M < sz → sz ≤ (J + 1) * 2 ^ M →
    chainBorder hc (tval hc f sz M J)
      (((rangeNodesAux 0 0 (J * 2 ^ M)).2.reverse).map (nodeH hc f)) = rootH hc f sz := by
  intro J
  induction J using Nat.strong_induction_on with
  | _ J ihJ =>
    intro M sz hl hr
    rcases Nat.eq_zero_or_pos J with hJ0 | hJpos
    · subst hJ0
      rw [show 0 * 2 ^ M = 0 by omega, rangeNodesAux_nil (le_refl 0)]
      simp only [List.reverse_nil, List.map_nil, chainBorder]
      exact tval_top hc f sz M (by omega)
    · have hpow : 0 < 2 ^ M := Nat.pos_pow_of_pos _ (by omega)
      rcases Nat.mod_two_eq_zero_or_one J with hJe | hJo
      · -- even J: same range one level up
        obtain ⟨K, hK⟩ : ∃ K, J = 2 * K := ⟨J / 2, by omega⟩
        subst hK
        have harg : 2 * K * 2 ^ M = K * 2 ^ (M + 1) := by ring
        have hrel : (2 * K + 1) * 2 ^ M = 2 * K * 2 ^ M + 2 ^ M := by ring
        have hrel2 : (K + 1) * 2 ^ (M + 1) = 2 * K * 2 ^ M + 2 ^ M + 2 ^ M := by ring
        have htv : tval hc f sz (M + 1) K = tval hc f sz M (2 * K) := by
          rw [tval, if_neg (by rw [Nat.shiftLeft_eq]; omega)]
        rw [harg, ← htv]
        exact ihJ K (by omega) (M + 1) sz (by omega) (by omega)
      · -- odd J: peel off the lowest border node
        obtain ⟨K, hK⟩ : ∃ K, J = 2 * K + 1 := ⟨J / 2, by omega⟩
        subst hK
        have hrl := rangeNodesAux_zero_split M 0 (2 * K + 1) (by omega)
        rw [hrl]
        simp only [List.reverse_append, List.reverse_cons, List.reverse_nil,
          List.nil_append, List.cons_append, List.map_cons, chainBorder]
        have hrel : (2 * K + 1) * 2 ^ M = 2 * K * 2 ^ M + 2 ^ M := by ring
        have hrel2 : (2 * K + 1 + 1) * 2 ^ M = 2 * K * 2 ^ M + 2 ^ M + 2 ^ M := by ring
        have hrel3 : (K + 1) * 2 ^ (M + 1) = 2 * K * 2 ^ M + 2 ^ M + 2 ^ M := by ring
        have harg : (2 * K + 1 - 1) * 2 ^ M = K * 2 ^ (M + 1) := by
          rw [show 2 * K + 1 - 1 = 2 * K by omega]; ring
        have harg2 : K * 2 ^ (M + 1) = 2 * K * 2 ^ M := by ring
        have hstep : hc (nodeH hc f ⟨0 + M, 2 * K + 1 - 1⟩) (tval hc f sz M (2 * K + 1)) =
            tval hc f sz (M + 1) K := by
          rw [tval, if_pos (by rw [Nat.shiftLeft_eq]; omega)]
          simp only [nodeH, Nat.zero_add, show 2 * K + 1 - 1 = 2 * K by omega]
        rw [hstep, harg]
        exact ihJ K (by omega) (M + 1) sz (by omega) (by omega)

theorem foldNodes_append_last {α : Type} (hc : α → α → α) (f : Nat → α) :
    ∀ (R : List NodeID) (a : NodeID),
    foldNodes hc f (R ++ [a]) =
      some (R.foldr (fun nd acc => hc (nodeH hc f nd) acc) (nodeH hc f a)) := by
  intro R a
  induction R with
  | nil => simp [foldNodes]
  | cons b R ih =>
    rw [List.cons_append, foldNodes_cons hc f b (R ++ [a]) _ ih]
    simp

/-- The in-window fold of `rehashList` computes `foldNodes` of the node list
whose hashes fill the window in reverse order. -/
theorem window_fold {α : Type} (hc : α → α → α) (f : Nat → α) (R : List NodeID)
    (x : α) (wt : List α) (h : R.reverse.map (nodeH hc f) = x :: wt) :
    foldNodes hc f R = some (wt.foldl (fun acc y => hc y acc) x) := by
  cases hR : R.reverse with
  | nil => rw [hR] at h; simp at h
  | cons a rt =>
    have hR2 : R = rt.reverse ++ [a] := by
      rw [← List.reverse_reverse R, hR]; simp
    rw [hR] at h
    simp only [List.map_cons] at h
    have hx : x = nodeH hc f a := by injection h with h1 _; exact h1.symm
    have hwt : wt = rt.map (nodeH hc f) := by injection h with _ h2; exact h2.symm
    subst hx hwt hR2
    rw [foldNodes_append_last]
    congr 1
    rw [List.foldl_map]
    rw [List.foldr_reverse]

/-- `rehashList` on a window that exactly covers the middle list replaces it
by its fold, leaving the outer parts unchanged. -/
theorem rehashList_splice {α : Type} (hc : α → α → α) (A C : List α) (x : α) (wt : List α) :
    rehashList hc A.length (A.length + (wt.length + 1)) (A ++ (x :: wt) ++ C) =
      A ++ (wt.foldl (fun acc y => hc y acc) x) :: C := by
  rw [rehashList, if_pos (by omega)]
  have hdrop : (A ++ (x :: wt) ++ C).drop A.length = x :: (wt ++ C) := by
    rw [List.append_assoc, List.drop_left]
    rfl
  rw [hdrop]
  have htake : (A ++ (x :: wt) ++ C).take A.length = A := by
    rw [List.append_assoc, List.take_left]
  have htake2 : (wt ++ C).take (A.length + (wt.length + 1) - 1 - A.length) = wt := by
    rw [show A.length + (wt.length + 1) - 1 - A.length = wt.length by omega]
    exact List.take_left wt C
  have hdrop2 : (A ++ (x :: wt) ++ C).drop (A.length + (wt.length + 1)) = C := by
    have hlen : (A ++ (x :: wt)).length = A.length + (wt.length + 1) := by simp
    rw [← hlen, List.drop_left]
  simp only [htake, htake2, hdrop2]

/-- `verify` accepts the canonical proof: siblings up to the fork, the
truncated right-hand node hash if the tree extends past the fork coverage,
and the left border hashes. -/
theorem verify_generic {α : Type} [DecidableEq α] (hc : α → α → α) (f : Nat → α)
    (n s m t : Nat)
    (hm : bitLen (n ^^^ s) = m + 1)
    (hnm : n >>> m = 2 * t) (hsm : s >>> m = 2 * t + 1)
    (proof : List α)
    (hpf : proof = (upSiblings m ⟨0, n⟩).1.map (nodeH hc f) ++
      (if (2 * t + 1) <<< m = s then [] else [tval hc f s m (2 * t + 1)]) ++
      ((RangeNodes 0 ((2 * t) <<< m)).reverse.map (nodeH hc f))) :
    verify hc n 0 s (f n) proof (rootH hc f s) = .ok () := by
  have hpow : 0 < 2 ^ m := Nat.pos_pow_of_pos _ (by omega)
  have hdiv : s / 2 ^ m = 2 * t + 1 := by rw [← Nat.shiftRight_eq_div_pow]; exact hsm
  have hdm := Nat.div_add_mod s (2 ^ m)
  have hmod : s % 2 ^ m < 2 ^ m := Nat.mod_lt s hpow
  have hdm3 : (2 * t + 1) * 2 ^ m + s % 2 ^ m = s := by
    rw [show (2 * t + 1) * 2 ^ m = 2 ^ m * (s / 2 ^ m) by rw [hdiv]; ring]
    exact hdm
  have hrel1 : (2 * t + 1) * 2 ^ m = 2 * t * 2 ^ m + 2 ^ m := by ring
  have hrel2 : (2 * t + 2) * 2 ^ m = 2 * t * 2 ^ m + 2 ^ m + 2 ^ m := by ring
  have hrel3 : t * 2 ^ (m + 1) = 2 * t * 2 ^ m := by ring
  have hrel4 : (t + 1) * 2 ^ (m + 1) = 2 * t * 2 ^ m + 2 ^ m + 2 ^ m := by ring
  have hsle : (2 * t + 1) * 2 ^ m ≤ s := by omega
  have hslt : s < (2 * t + 2) * 2 ^ m := by omega
  have hshl : (2 * t + 1) <<< m = (2 * t + 1) * 2 ^ m := Nat.shiftLeft_eq _ _
  have hAlen : ((upSiblings m (⟨0, n⟩ : NodeID)).1.map (nodeH hc f)).length = m := by
    simp [upSiblings_length]
  have hchain := chainInner_upSiblings hc f m 0 n
  simp only [subH, Nat.zero_add, hnm] at hchain
  have hLb : RangeNodes 0 ((2 * t) <<< m) = (rangeNodesAux 0 0 (t * 2 ^ (m + 1))).2 := by
    rw [RangeNodes, rangeNodesAux_left_nil, List.nil_append, Nat.shiftLeft_eq,
      show 2 * t * 2 ^ m = t * 2 ^ (m + 1) by ring]
  have hborder := border_fold hc f t (m + 1) s (by omega) (by omega)
  subst hpf
  simp only [verify, Nat.shiftRight_zero, NewNodeID, NodeID.Coverage, hm,
    Nat.add_sub_cancel, Nat.zero_add, hnm, RangeSize]
  by_cases hes : (2 * t + 1) <<< m = s
  · -- the fork coverage ends exactly at the tree size: no ephemeral hash
    have htv : tval hc f s (m + 1) t = subH hc f m (2 * t) := by
      rw [tval, if_neg (by omega), tval_perf hc f s m (2 * t) (by omega)]
    simp only [if_pos hes, List.nil_append, List.append_nil]
    rw [if_neg (by simp [upSiblings_length])]
    rw [List.take_left' hAlen, List.drop_left' hAlen, hchain]
    rw [if_neg (by omega : ¬ (0 : Nat) = 1)]
    rw [Nat.add_zero, List.drop_left' hAlen]
    rw [show subH hc f m (2 * t) = tval hc f s (m + 1) t from htv.symm]
    rw [hLb, hborder, if_pos rfl]
  · -- the tree extends past the fork coverage: ephemeral right-hand hash
    have hlt : (2 * t + 1) * 2 ^ m < s := by
      rcases Nat.lt_or_ge ((2 * t + 1) * 2 ^ m) s with h | h
      · exact h
      · exact absurd (by omega : (2 * t + 1) <<< m = s) hes
    have htv2 : tval hc f s (m + 1) t =
        hc (subH hc f m (2 * t)) (tval hc f s m (2 * t + 1)) := by
      rw [tval, if_pos (by omega)]
    simp only [if_neg hes]
    rw [if_neg (by simp [upSiblings_length]; omega)]
    rw [List.append_assoc]
    rw [List.take_left' hAlen, List.drop_left' hAlen, hchain]
    simp only [if_true, List.singleton_append]
    have hA1len : (((upSiblings m (⟨0, n⟩ : NodeID)).1.map (nodeH hc f)) ++
        [tval hc f s m (2 * t + 1)]).length = m + 1 := by
      simp [upSiblings_length]
    rw [show ((upSiblings m (⟨0, n⟩ : NodeID)).1.map (nodeH hc f)) ++
        (tval hc f s m (2 * t + 1) ::
          ((RangeNodes 0 ((2 * t) <<< m)).reverse.map (nodeH hc f))) =
        (((upSiblings m (⟨0, n⟩ : NodeID)).1.map (nodeH hc f)) ++
          [tval hc f s m (2 * t + 1)]) ++
          ((RangeNodes 0 ((2 * t) <<< m)).reverse.map (nodeH hc f)) by simp]
    rw [List.drop_left' hA1len]
    rw [show hc (subH hc f m (2 * t)) (tval hc f s m (2 * t + 1)) =
      tval hc f s (m + 1) t from htv2.symm]
    rw [hLb, hborder, if_pos rfl]

/-- The shape of `proof.nodes` at leaf level, under the fork decomposition
of `index` and `size`. -/
theorem nodesFn_shape (n s m t : Nat)
    (hm : bitLen (n ^^^ s) = m + 1) (hnm : n >>> m = 2 * t) :
    nodesFn n 0 s =
      ⟨(upSiblings m ⟨0, n⟩).1 ++ (RangeNodes ((2 * t + 1) <<< m) s).reverse ++
          (RangeNodes 0 ((2 * t) <<< m)).reverse,
        if (RangeNodes ((2 * t + 1) <<< m) s).length ≤ 1 then 0 else m,
        if (RangeNodes ((2 * t + 1) <<< m) s).length ≤ 1 then 0
          else m + (RangeNodes ((2 * t + 1) <<< m) s).length,
        ⟨m, 2 * t + 1⟩⟩ := by
  have hxor : 2 * t ^^^ 1 = 2 * t + 1 := xor_one_even (by omega)
  simp only [nodesFn, NewNodeID, NodeID.Coverage, Nat.shiftLeft_zero, hm,
    Nat.add_sub_cancel, Nat.sub_zero]
  rw [upSiblings_snd m 0 n]
  simp only [hnm, Nat.zero_add, NodeID.Sibling, hxor, upSiblings_length,
    List.length_append, List.length_reverse]
  by_cases hR : (RangeNodes ((2 * t + 1) <<< m) s).length ≤ 1
  · rw [if_pos (by omega), if_pos hR, if_pos hR]
  · rw [if_neg (by omega), if_neg hR, if_neg hR]

/-- CLAIM C1. For every leaf index below the tree size, the canonical
inclusion pipeline succeeds: the node hashes for the IDs of
`Inclusion(index, size)` taken from the canonical Merkle tree, passed
through `Rehash`, verify under `VerifyInclusion` against the canonical leaf
hash and the canonical root, for every children hasher and every leaf-hash
assignment. -/
theorem inclusion_roundtrip {α : Type} [DecidableEq α] (hc : α → α → α) (f : Nat → α)
    (index size : Nat) (h : index < size) :
    canonicalInclusionRun hc f index size = some (.ok ()) := by
  -- the fork decomposition of index and size
  have hxne : index ^^^ size ≠ 0 := fun hx => by
    have := Nat.xor_eq_zero.1 hx
    omega
  have hm1 : 1 ≤ bitLen (index ^^^ size) := by
    have := bitLen_eq_zero_iff (index ^^^ size)
    omega
  obtain ⟨m, hm⟩ : ∃ m, bitLen (index ^^^ size) = m + 1 :=
    ⟨bitLen (index ^^^ size) - 1, by omega⟩
  have hx1 : index ^^^ size < 2 ^ (m + 1) := (bitLen_le_iff _ _).1 (by omega)
  have hx2 : ¬ index ^^^ size < 2 ^ m := fun hcc => by
    have := (bitLen_le_iff m (index ^^^ size)).2 hcc
    omega
  have htop : index >>> (m + 1) = size >>> (m + 1) :=
    (shiftRight_eq_iff_xor_lt _ _ _).2 hx1
  have hneq : index >>> m ≠ size >>> m := fun he =>
    hx2 ((shiftRight_eq_iff_xor_lt _ _ _).1 he)
  have hpow : 0 < 2 ^ m := Nat.pos_pow_of_pos _ (by omega)
  obtain ⟨t, hnm, hsm⟩ : ∃ t, index >>> m = 2 * t ∧ size >>> m = 2 * t + 1 := by
    refine ⟨size >>> (m + 1), ?_, ?_⟩ <;>
    · rw [Nat.shiftRight_eq_div_pow] at htop hneq ⊢
      rw [Nat.shiftRight_eq_div_pow] at htop hneq ⊢
      have ha2 : index / 2 ^ m / 2 = index / 2 ^ (m + 1) := by
        rw [Nat.div_div_eq_div_mul, pow_succ]
      have hb2 : size / 2 ^ m / 2 = size / 2 ^ (m + 1) := by
        rw [Nat.div_div_eq_div_mul, pow_succ]
      have hmono : index / 2 ^ m ≤ size / 2 ^ m := Nat.div_le_div_right (le_of_lt h)
      omega
  -- size bounds of the fork coverage
  have hdiv : size / 2 ^ m = 2 * t + 1 := by
    rw [← Nat.shiftRight_eq_div_pow]
    exact hsm
  have hdm := Nat.div_add_mod size (2 ^ m)
  have hmod : size % 2 ^ m < 2 ^ m := Nat.mod_lt size hpow
  have hdm3 : (2 * t + 1) * 2 ^ m + size % 2 ^ m = size := by
    rw [show (2 * t + 1) * 2 ^ m = 2 ^ m * (size / 2 ^ m) by rw [hdiv]; ring]
    exact hdm
  have hshl : (2 * t + 1) <<< m = (2 * t + 1) * 2 ^ m := Nat.shiftLeft_eq _ _
  have hsle : (2 * t + 1) <<< m ≤ size := by omega
  -- unfold the pipeline
  have hshape := nodesFn_shape index size m t hm hnm
  have hI : Inclusion index size = .ok (nodesFn index 0 size) := by
    rw [Inclusion, if_neg (by omega)]
  have hRe : (nodesFn index 0 size).Rehash
      ((nodesFn index 0 size).IDs.map (nodeH hc f)) hc =
      .ok (rehashList hc (nodesFn index 0 size).beginIdx (nodesFn index 0 size).endIdx
        ((nodesFn index 0 size).IDs.map (nodeH hc f))) := by
    rw [Nodes.Rehash, if_neg (by simp)]
  rw [canonicalInclusionRun]
  simp only [hI, hRe]
  rw [VerifyInclusion, if_neg (by omega)]
  rw [hshape]
  -- case split on the right-hand range
  by_cases hes : (2 * t + 1) <<< m = size
  · -- coverage ends at the tree edge: no right-hand range
    have hR0 : RangeNodes ((2 * t + 1) <<< m) size = [] := by
      rw [hes, RangeNodes, rangeNodesAux_nil (le_refl size)]
      rfl
    rw [hR0]
    simp only [List.length_nil, List.reverse_nil, List.append_nil, Nat.zero_le, if_pos]
    rw [rehashList, if_neg (by omega)]
    rw [verify_generic hc f index size m t hm hnm hsm _
      (by rw [if_pos hes]; simp [List.map_append])]
  · -- the tree extends past the coverage
    have hlt : (2 * t + 1) <<< m < size := by omega
    have hfold := rangeNodes_fold hc f m (2 * t + 1) size (by omega)
      (by rw [show (2 * t + 1 + 1) * 2 ^ m = (2 * t + 1) * 2 ^ m + 2 ^ m by ring]; omega)
    rw [← hshl] at hfold
    have hRlen : 1 ≤ (RangeNodes ((2 * t + 1) <<< m) size).length := by
      have := rangeNodesAux_len_pos size 0 ((2 * t + 1) <<< m) hlt
      rw [RangeNodes, List.length_append]
      omega
    by_cases hR1 : (RangeNodes ((2 * t + 1) <<< m) size).length ≤ 1
    · -- a single node: the window is collapsed, no rehashing needed
      obtain ⟨a, hRa⟩ : ∃ a, RangeNodes ((2 * t + 1) <<< m) size = [a] := by
        cases hRc : RangeNodes ((2 * t + 1) <<< m) size with
        | nil => rw [hRc] at hRlen; simp at hRlen
        | cons a rest =>
          rw [hRc] at hR1
          simp at hR1
          exact ⟨a, by rw [hR1]⟩
      have hva : nodeH hc f a = tval hc f size m (2 * t + 1) := by
        rw [hRa] at hfold
        simp [foldNodes] at hfold
        exact hfold
      rw [hRa]
      simp only [List.length_cons, List.length_nil, Nat.zero_add, le_refl, if_pos]
      rw [rehashList, if_neg (by omega)]
      rw [verify_generic hc f index size m t hm hnm hsm _
        (by rw [if_neg hes]; simp [List.map_append, hva])]
    · -- a true window: rehashing folds it to the ephemeral hash
      rw [if_neg hR1, if_neg hR1]
      -- split the mapped hash list
      simp only [List.map_append, List.map_reverse]
      obtain ⟨x, wt, hW⟩ : ∃ x wt,
          (List.map (nodeH hc f) (RangeNodes ((2 * t + 1) <<< m) size)).reverse =
            x :: wt := by
        cases hWc : (List.map (nodeH hc f) (RangeNodes ((2 * t + 1) <<< m) size)).reverse with
        | nil =>
          have hlen := congrArg List.length hWc
          simp only [List.length_reverse, List.length_map, List.length_nil] at hlen
          omega
        | cons x wt => exact ⟨x, wt, rfl⟩
      have hwin := window_fold hc f (RangeNodes ((2 * t + 1) <<< m) size) x wt
        (by rw [List.map_reverse]; exact hW)
      have hv : wt.foldl (fun acc y => hc y acc) x = tval hc f size m (2 * t + 1) := by
        rw [hfold] at hwin
        injection hwin with hwin
        exact hwin.symm
      have hAlen : ((upSiblings m (⟨0, index⟩ : NodeID)).1.map (nodeH hc f)).length = m := by
        simp [upSiblings_length]
      have hwtlen : wt.length + 1 = (RangeNodes ((2 * t + 1) <<< m) size).length := by
        have := congrArg List.length hW
        simp at this
        omega
      have hsplice := rehashList_splice hc
        (List.map (nodeH hc f) (upSiblings m (⟨0, index⟩ : NodeID)).1)
        (List.map (nodeH hc f) (RangeNodes 0 ((2 * t) <<< m)).reverse) x wt
      rw [hAlen, hwtlen] at hsplice
      rw [List.map_reverse] at hsplice
      rw [hW, hsplice, hv]
      rw [verify_generic hc f index size m t hm hnm hsm _
        (by rw [if_neg hes]; simp)]

/-- Witness for `inclusion_roundtrip` at concrete inputs. -/
theorem inclusion_roundtrip_witness :
    (2 : Nat) < 5 ∧ canonicalInclusionRun hcL fL 2 5 = some (.ok ()) :=
  ⟨by decide, inclusion_roundtrip hcL fL 2 5 (by decide)⟩

/-! ### `proof.VerifyTLogProof` (tlog_proof.go): the c2sp.org/tlog-proof
parser.  The scanner-based parser is embedded over the proof text as a
list of lines (`bufio.Scanner` with the default line splitter; `Text()`
after a failed `Scan()` is the empty string, modelled by `getD ""`).
Base64 decoding, checkpoint parsing/verification (`log.ParseCheckpoint`
with the origin and verifier baked in) and the witness policy (`nil`
policy / `NewWitnessGroupFromPolicy` failure / `Satisfied`) live outside
the repository and are abstracted as function parameters; hashes are byte
strings `List Nat`. -/

/-- The `strings.HasPrefix s p` test, over the character lists. -/
def strStarts (s p : String) : Bool := s.data.take p.data.length == p.data

/-- Dropping the first `n` characters of a string (the remainder after
`strings.CutPrefix` with a length-`n` tag). -/
def strDropN (s : String) (n : Nat) : String := ⟨s.data.drop n⟩

/-- The error outcomes of `VerifyTLogProof`, one constructor per error
`return` site of tlog_proof.go. -/
inductive TErr where
  | missingHeader
  | extraNotBase64
  | missingIndex
  | indexNotUint64
  | hashNotBase64
  | hashWrongLength (got : Nat)
  | checkpointUnverified
  | invalidWitnessPolicy
  | witnessUnsatisfied
  | inclusionFailed
deriving DecidableEq, Repr

/-- `strconv.ParseUint(s, 10, 64)`: nonempty, all decimal digits, value
below `2^64`. -/
def parseUint64 (s : String) : Option Nat :=
  if s.data.isEmpty then none
  else if s.data.all (fun c => c.isDigit) then
    let v := s.data.foldl (fun acc c => acc * 10 + (c.toNat - 48)) 0
    if v < 2 ^ 64 then some v else none
  else none

/-- The hash-reading loop of `VerifyTLogProof`: lines up to the first
blank line (or the end of input) are base64-decoded and must be 32 bytes;
returns the hashes and the remaining (checkpoint) lines. -/
def parseHashes (b64 : String → Option (List Nat)) :
    List String → Except TErr (List (List Nat) × List String)
  | [] => .ok ([], [])
  | l :: rest =>
    if l = "" then .ok ([], rest)
    else match b64 l with
      | none => .error .hashNotBase64
      | some hsh =>
        if hsh.length ≠ 32 then .error (.hashWrongLength hsh.length)
        else match parseHashes b64 rest with
          | .error er => .error er
          | .ok (hs, ck) => .ok (hsh :: hs, ck)

/-- The optional-`extra`-line step of `VerifyTLogProof`: if the second
line carries the `extra ` tag its payload must base64-decode and the
scanner advances, so the index line is line 2; otherwise line 1 itself is
the index line. -/
def tlogExtraStep (b64 : String → Option (List Nat)) (l1 : String) :
    Except TErr (Option (List Nat) × Nat) :=
  if strStarts l1 "extra " then
    match b64 (strDropN l1 6) with
    | none => .error .extraNotBase64
    | some ex => .ok (some ex, 2)
  else .ok (none, 1)

/-- `proof.VerifyTLogProof(proof, leafHash, logOrigin, logVerifier,
witnessPolicy)` over the proof split into lines, returning the index and
the optional extra data on success. -/
def VerifyTLogProof (hc : List Nat → List Nat → List Nat)
    (b64 : String → Option (List Nat))
    (parseCkpt : List String → Option (Nat × List Nat))
    (witnessPolicy : Option (Option (List String → Bool)))
    (lines : List String) (leafHash : List Nat) :
    Except TErr (Nat × Option (List Nat)) :=
  if ((lines.get? 0).getD "") ≠ "c2sp.org/tlog-proof@v1" then .error .missingHeader
  else
    match tlogExtraStep b64 ((lines.get? 1).getD "") with
    | .error er => .error er
    | .ok (extra, ipos) =>
      let idxLine := (lines.get? ipos).getD ""
      if strStarts idxLine "index " then
        match parseUint64 (strDropN idxLine 6) with
        | none => .error .indexNotUint64
        | some idx =>
          match parseHashes b64 (lines.drop (ipos + 1)) with
          | .error er => .error er
          | .ok (hashes, ckptLines) =>
            match parseCkpt ckptLines with
            | none => .error .checkpointUnverified
            | some (ckptSize, ckptHash) =>
              match (match witnessPolicy with
                     | none => Except.ok ()
                     | some none => Except.error TErr.invalidWitnessPolicy
                     | some (some sat) =>
                       if sat ckptLines then Except.ok () else Except.error TErr.witnessUnsatisfied) with
              | .error er => .error er
              | .ok _ =>
                match VerifyInclusion hc idx ckptSize leafHash hashes ckptHash with
                | .error _ => .error .inclusionFailed
                | .ok _ => .ok (idx, extra)
      else .error .missingIndex

/-- CLAIM C9. `VerifyTLogProof` fails on every malformed input: a wrong
first line gives the missing-header error; an `extra `-tagged second line
whose payload does not base64-decode gives the extra-not-base64 error; an
index line without the `index ` tag gives the missing-index error and one
with an unparsable remainder the index-not-uint64 error; and a failure of
the hash-reading loop propagates, where that loop only ever fails with
not-base64 or a decoded length other than 32.  The checkpoint parser,
witness policy and hasher are universally quantified and unused by every
conclusion: all these failures occur without any checkpoint or inclusion
verification. -/
theorem tlog_parse_failures (hc : List Nat → List Nat → List Nat)
    (b64 : String → Option (List Nat))
    (parseCkpt : List String → Option (Nat × List Nat))
    (wp : Option (Option (List String → Bool))) (leafHash : List Nat) :
    (∀ lines, ((lines.get? 0).getD "") ≠ "c2sp.org/tlog-proof@v1" →
      VerifyTLogProof hc b64 parseCkpt wp lines leafHash = .error .missingHeader) ∧
    (∀ lines, ((lines.get? 0).getD "") = "c2sp.org/tlog-proof@v1" →
      strStarts ((lines.get? 1).getD "") "extra " = true →
      b64 (strDropN ((lines.get? 1).getD "") 6) = none →
      VerifyTLogProof hc b64 parseCkpt wp lines leafHash = .error .extraNotBase64) ∧
    (∀ lines extra ipos, ((lines.get? 0).getD "") = "c2sp.org/tlog-proof@v1" →
      tlogExtraStep b64 ((lines.get? 1).getD "") = .ok (extra, ipos) →
      strStarts ((lines.get? ipos).getD "") "index " = false →
      VerifyTLogProof hc b64 parseCkpt wp lines leafHash = .error .missingIndex) ∧
    (∀ lines extra ipos, ((lines.get? 0).getD "") = "c2sp.org/tlog-proof@v1" →
      tlogExtraStep b64 ((lines.get? 1).getD "") = .ok (extra, ipos) →
      strStarts ((lines.get? ipos).getD "") "index " = true →
      parseUint64 (strDropN ((lines.get? ipos).getD "") 6) = none →
      VerifyTLogProof hc b64 parseCkpt wp lines leafHash = .error .indexNotUint64) ∧
    (∀ lines extra ipos idx er, ((lines.get? 0).getD "") = "c2sp.org/tlog-proof@v1" →
      tlogExtraStep b64 ((lines.get? 1).getD "") = .ok (extra, ipos) →
      strStarts ((lines.get? ipos).getD "") "index " = true →
      parseUint64 (strDropN ((lines.get? ipos).getD "") 6) = some idx →
      parseHashes b64 (lines.drop (ipos + 1)) = .error er →
      VerifyTLogProof hc b64 parseCkpt wp lines leafHash = .error er) ∧
    (∀ ls er, parseHashes b64 ls = .error er →
      er = .hashNotBase64 ∨ ∃ k, er = .hashWrongLength k ∧ k ≠ 32) := by
  refine ⟨?_, ?_, ?_, ?_, ?_, ?_⟩
  · intro lines h
    simp only [VerifyTLogProof, if_pos h]
  · intro lines h hpre hb
    simp only [VerifyTLogProof, h, ne_eq, not_true_eq_false, if_false,
      tlogExtraStep, if_pos hpre, hb]
  · intro lines extra ipos h hstep hidx
    simp only [VerifyTLogProof, h, ne_eq, not_true_eq_false, if_false, hstep, hidx,
      Bool.false_eq_true, if_false]
  · intro lines extra ipos h hstep hidx hu
    simp only [VerifyTLogProof, h, ne_eq, not_true_eq_false, if_false, hstep, hidx,
      if_true, hu]
  · intro lines extra ipos idx er h hstep hidx hu hph
    simp only [VerifyTLogProof, h, ne_eq, not_true_eq_false, if_false, hstep, hidx,
      if_true, hu, hph]
  · intro ls er h
    induction ls with
    | nil => simp [parseHashes] at h
    | cons l rest ih =>
      simp only [parseHashes] at h
      split at h
      · simp at h
      · cases hb : b64 l with
        | none => simp only [hb] at h; left; injection h with h; exact h.symm
        | some hsh =>
          simp only [hb] at h
          split at h
          · right; injection h with h; exact ⟨hsh.length, h.symm, by omega⟩
          · cases hr : parseHashes b64 rest with
            | error e2 => simp only [hr] at h; injection h with h; subst h; exact ih hr
            | ok p => simp only [hr] at h; simp at h

/-- A concrete hasher for witnesses: concatenation. -/
def hcCat : List Nat → List Nat → List Nat := fun l r => l ++ r

/-- A concrete base64 decoder for witnesses: decodes exactly two strings,
one to a single byte and one to 32 bytes. -/
def b64W : String → Option (List Nat) :=
  fun s => if s = "AA" then some [0] else if s = "OK" then some (List.replicate 32 0) else none

/-- A concrete checkpoint parser for witnesses. -/
def pcW : List String → Option (Nat × List Nat) := fun _ => none

/-- Witness for `tlog_parse_failures`: one concrete malformed input per
failure mode. -/
theorem tlog_parse_failures_witness :
    VerifyTLogProof hcCat b64W pcW none ["bad"] [] = .error .missingHeader ∧
    VerifyTLogProof hcCat b64W pcW none ["c2sp.org/tlog-proof@v1", "extra ?!"] [] = .error .extraNotBase64 ∧
    VerifyTLogProof hcCat b64W pcW none ["c2sp.org/tlog-proof@v1", "nonsense"] [] = .error .missingIndex ∧
    VerifyTLogProof hcCat b64W pcW none ["c2sp.org/tlog-proof@v1", "index x"] [] = .error .indexNotUint64 ∧
    VerifyTLogProof hcCat b64W pcW none ["c2sp.org/tlog-proof@v1", "index 5", "AA"] [] = .error (.hashWrongLength 1) ∧
    (TErr.hashWrongLength 1 = .hashNotBase64 ∨ ∃ k, TErr.hashWrongLength 1 = .hashWrongLength k ∧ k ≠ 32) :=
  ⟨(tlog_parse_failures hcCat b64W pcW none []).1 ["bad"] (by decide),
   (tlog_parse_failures hcCat b64W pcW none []).2.1 _ (by decide) (by decide) (by decide),
   (tlog_parse_failures hcCat b64W pcW none []).2.2.1 _ none 1 (by decide) rfl (by decide),
   (tlog_parse_failures hcCat b64W pcW none []).2.2.2.1 _ none 1 (by decide) rfl (by decide) (by decide),
   (tlog_parse_failures hcCat b64W pcW none []).2.2.2.2.1 _ none 1 5 _ (by decide) rfl (by decide) (by decide) rfl,
   (tlog_parse_failures hcCat b64W pcW none []).2.2.2.2.2 ["AA"] _ rfl⟩

end MerkleProof
